import Mathlib

/-!
Verification of aesdsocket and aesd-circular-buffer.

Shallow embedding of

* `src/server/aesdsocket.c`: the worker registry (`join_completed_threads`,
  `cleanup_threads`) and the connection handler (`handle_connection`);
* `src/aesd-char-driver/aesd-circular-buffer.c`: the ring buffer of write
  entries.

System calls are modelled by explicit environments (oracles) that fix what each
call returns; the shared data file is a list of bytes.
-/

namespace Aesd

/-! ## Worker registry (`thread_node_t`, `thread_list_head`) -/

/-- One `thread_node_t`; the `next` pointer is the tail of the list that holds
the node, `client_addr` plays no part in the registry operations. -/
structure thread_node where
  thread_id : Nat
  client_fd : Int
  thread_complete : Bool
  deriving DecidableEq, Repr

/-- The calls the registry operations make, in program order. -/
inductive RegEvent where
  | pthread_join (thread_id : Nat)
  | close (fd : Int)
  | free (thread_id : Nat)
  deriving DecidableEq, Repr

/-- Thread ids passed to `pthread_join`, in call order. -/
def joinedIds : List RegEvent → List Nat
  | [] => []
  | RegEvent.pthread_join t :: es => t :: joinedIds es
  | _ :: es => joinedIds es

/-- Descriptors passed to `close`, in call order. -/
def closedFds : List RegEvent → List Int
  | [] => []
  | RegEvent.close fd :: es => fd :: closedFds es
  | _ :: es => closedFds es

/-- The loop of `join_completed_threads` from `current` on: the nodes that stay
linked (what `prev`/`thread_list_head` end up pointing at) and the calls made.
A completed node is joined, its socket closed when `client_fd != -1`, unlinked
and freed; any other node is kept and becomes `prev`. -/
def join_completed_threads : List thread_node → List thread_node × List RegEvent
  | [] => ([], [])
  | current :: next =>
    if current.thread_complete then
      let r := join_completed_threads next
      (r.1,
        [RegEvent.pthread_join current.thread_id]
          ++ (if current.client_fd ≠ -1 then [RegEvent.close current.client_fd] else [])
          ++ [RegEvent.free current.thread_id]
          ++ r.2)
    else
      let r := join_completed_threads next
      (current :: r.1, r.2)

/-- The loop of `cleanup_threads` from `current` on: the calls made. A node is
joined only when `!current->thread_complete`, its descriptor is closed when
`client_fd != 1`, and it is freed. -/
def cleanup_loop : List thread_node → List RegEvent
  | [] => []
  | current :: next =>
    (if !current.thread_complete then [RegEvent.pthread_join current.thread_id] else [])
      ++ (if current.client_fd ≠ 1 then [RegEvent.close current.client_fd] else [])
      ++ [RegEvent.free current.thread_id]
      ++ cleanup_loop next

/-- The whole of `cleanup_threads`: runs the loop over the list and then sets
`thread_list_head = NULL`. Returns the new list and the calls made. -/
def cleanup_threads (thread_list_head : List thread_node) :
    List thread_node × List RegEvent :=
  ([], cleanup_loop thread_list_head)

/-! ## Circular buffer (`aesd-circular-buffer.c`) -/

/-- Modelled from the spec: `aesd-circular-buffer.h` is not among the sources;
the capacity macro it defines is taken as 10. -/
def AESDCHAR_MAX_WRITE_OPERATIONS_SUPPORTED : Nat := 10

/-- Number of values of a `size_t` (64-bit target): arithmetic on `size_t`
wraps modulo this. -/
def SIZE_MOD : Nat := 2 ^ 64

/-- A `struct aesd_buffer_entry`: `buffptr` is the address of the bytes and
`size` their number. -/
structure aesd_buffer_entry where
  buffptr : Nat
  size : Nat
  deriving DecidableEq, Repr, Inhabited

/-- A `struct aesd_circular_buffer`: the `entry` array, the two offsets and the
`full` flag. -/
structure aesd_circular_buffer where
  entry : List aesd_buffer_entry
  in_offs : Nat
  out_offs : Nat
  full : Bool
  deriving DecidableEq, Repr

/-- What `aesd_circular_buffer_init` leaves: the structure after
`memset(buffer, 0, sizeof ...)`. -/
def aesd_circular_buffer_init : aesd_circular_buffer :=
  { entry := List.replicate AESDCHAR_MAX_WRITE_OPERATIONS_SUPPORTED ⟨0, 0⟩
    in_offs := 0
    out_offs := 0
    full := false }

/-- The body of `aesd_circular_buffer_add_entry`, statement by statement. -/
def aesd_circular_buffer_add_entry (buffer : aesd_circular_buffer)
    (add_entry : aesd_buffer_entry) : aesd_circular_buffer :=
  let entry := buffer.entry.set buffer.in_offs add_entry
  let out_offs :=
    if buffer.full then (buffer.out_offs + 1) % AESDCHAR_MAX_WRITE_OPERATIONS_SUPPORTED
    else buffer.out_offs
  let in_offs := (buffer.in_offs + 1) % AESDCHAR_MAX_WRITE_OPERATIONS_SUPPORTED
  let full := if in_offs = out_offs then true else buffer.full
  { entry := entry, in_offs := in_offs, out_offs := out_offs, full := full }

/-- What `aesd_circular_buffer_find_entry_offset_for_fpos` hands back: the index
in `buffer->entry` of the returned entry (`none` for `NULL`) and the value of
`*entry_offset_byte_rtn` when the function returns. -/
structure find_result where
  entry : Option Nat
  entry_offset_byte_rtn : Nat
  deriving DecidableEq, Repr

/-- The `while(1)` loop of `aesd_circular_buffer_find_entry_offset_for_fpos`,
one unit of fuel per iteration; `none` when the fuel runs out before the loop
ends. `rtn` is the value `*entry_offset_byte_rtn` had before the call. -/
def find_loop (buffer : aesd_circular_buffer) (char_offset rtn : Nat) :
    Nat → Nat → Nat → Option find_result
  | 0, _, _ => none
  | fuel + 1, index, current_offset =>
    let entry := buffer.entry.getD index default
    if char_offset < (current_offset + entry.size) % SIZE_MOD then
      some { entry := some index
             entry_offset_byte_rtn := (char_offset + SIZE_MOD - current_offset) % SIZE_MOD }
    else
      let current_offset := (current_offset + entry.size) % SIZE_MOD
      let index := (index + 1) % AESDCHAR_MAX_WRITE_OPERATIONS_SUPPORTED
      if index = buffer.in_offs then
        some { entry := none, entry_offset_byte_rtn := rtn }
      else
        find_loop buffer char_offset rtn fuel index current_offset

/-- The function `aesd_circular_buffer_find_entry_offset_for_fpos`: the empty
test, then the loop started at `out_offs` with `current_offset = 0`. -/
def aesd_circular_buffer_find_entry_offset_for_fpos (fuel : Nat)
    (buffer : aesd_circular_buffer) (char_offset rtn : Nat) : Option find_result :=
  if !buffer.full && buffer.in_offs == buffer.out_offs then
    some { entry := none, entry_offset_byte_rtn := rtn }
  else
    find_loop buffer char_offset rtn fuel buffer.out_offs 0

/-- The buffer after `aesd_circular_buffer_init` and one
`aesd_circular_buffer_add_entry` per element of `es`, in order. -/
def buffer_after (es : List aesd_buffer_entry) : aesd_circular_buffer :=
  es.foldl aesd_circular_buffer_add_entry aesd_circular_buffer_init

/-- The last `min n 10` entries of a sequence of `n`, in insertion order. -/
def last_entries (es : List aesd_buffer_entry) : List aesd_buffer_entry :=
  es.drop (es.length - AESDCHAR_MAX_WRITE_OPERATIONS_SUPPORTED)

/-- Total size of a list of entries. -/
def total_size (es : List aesd_buffer_entry) : Nat :=
  (es.map (fun e => e.size)).sum

/-- How a buffer state stores the entries `K`, oldest first: `K` sits in the
slots from `out_offs` on, cyclically, and `in_offs`/`full` agree with its
length. -/
def Stores (buffer : aesd_circular_buffer) (K : List aesd_buffer_entry) : Prop :=
  buffer.entry.length = AESDCHAR_MAX_WRITE_OPERATIONS_SUPPORTED ∧
  buffer.out_offs < AESDCHAR_MAX_WRITE_OPERATIONS_SUPPORTED ∧
  K.length ≤ AESDCHAR_MAX_WRITE_OPERATIONS_SUPPORTED ∧
  buffer.in_offs = (buffer.out_offs + K.length) % AESDCHAR_MAX_WRITE_OPERATIONS_SUPPORTED ∧
  (buffer.full = true ↔ K.length = AESDCHAR_MAX_WRITE_OPERATIONS_SUPPORTED) ∧
  ∀ j, j < K.length →
    buffer.entry[(buffer.out_offs + j) % AESDCHAR_MAX_WRITE_OPERATIONS_SUPPORTED]? = K[j]?

/-! ## Connection handler (`handle_connection`) -/

/-- A byte of the data file, of the transfer buffer or on the wire. -/
abbrev Byte := Nat

/-- The newline character. -/
def NEWLINE : Byte := 10

/-- The macro `BUFFER_SIZE`. -/
def BUFFER_SIZE : Nat := 1024

/-- Conversion of a signed result to `size_t`, as in
`bytes_received = recv(...)` with `size_t bytes_received`. -/
def to_size_t (x : Int) : Nat := (x % (SIZE_MOD : Int)).toNat

/-- The cast `(ssize_t)n` of a `size_t` value. -/
def to_ssize_t (n : Nat) : Int :=
  if n % SIZE_MOD < SIZE_MOD / 2 then ((n % SIZE_MOD : Nat) : Int)
  else ((n % SIZE_MOD : Nat) : Int) - (SIZE_MOD : Int)

/-- What one call of `recv(client_fd, buffer, BUFFER_SIZE, 0)` does: it fails
(returns -1), or bytes arrive, of which the call stores at most `BUFFER_SIZE`;
no bytes means the peer has closed (returns 0). -/
inductive RecvResult where
  | error
  | data (bytes : List Byte)
  deriving DecidableEq, Repr

/-- The environment of one run of the handler: the value of the volatile
`signal_received` at each test, and the outcome of each system call. For
`write`, `read` and `send` the outcome is `none` for a failure (-1) and
`some n` when the kernel is ready to transfer up to `n` bytes; the call then
transfers as many of the requested bytes as that allows. The index is the
number of the loop iteration making the call. -/
structure Env where
  signal_recv : Nat → Bool
  signal_reply : Nat → Bool
  open_append : Bool
  write_res : Nat → Option Nat
  open_read : Bool
  read_res : Nat → Option Nat
  send_res : Nat → Option Nat

/-- The calls and stores of the handler, in program order. -/
inductive Event where
  | open_append (ok : Bool)
  | recv (ret : Int)
  | lock
  | unlock
  | write (count : Nat) (ret : Int)
  | fsync
  | close_data
  | open_read (ok : Bool)
  | lseek
  | read (count : Nat) (ret : Int)
  | send (count : Nat) (ret : Int)
  | syslog
  | set_complete
  deriving DecidableEq, Repr

/-- State of a run: the content of `DATA_FILE`, the memory that starts at
`buffer` (the 1024 bytes of the array and whatever follows them on the stack),
the bytes the peer has been sent, the field `node->thread_complete`, and the
events so far. -/
structure HState where
  log : List Byte
  mem : List Byte
  sent : List Byte
  thread_complete : Bool
  trace : List Event
  deriving DecidableEq, Repr

/-- Appends events to the trace. -/
def HState.emit (st : HState) (es : List Event) : HState :=
  { st with trace := st.trace ++ es }

/-- The pair of statements `node->thread_complete = true; return NULL;`. -/
def finish (st : HState) : HState :=
  { st with thread_complete := true, trace := st.trace ++ [Event.set_complete] }

/-- How a stretch of the handler ends: `next`, the loop body is done and the
loop goes on; `leave`, the loop has been left (by `break` or by its condition);
`returned`, the handler has executed `return NULL`; `blocked`, the handler
waits in a `recv` that never returns; `fault`, the scan ran off the memory;
`out_of_fuel`, the fuel of the model ran out. -/
inductive Step where
  | next (st : HState)
  | leave (st : HState)
  | returned (st : HState)
  | blocked (st : HState)
  | fault (st : HState)
  | out_of_fuel (st : HState)
  deriving DecidableEq, Repr

/-- Result of the scan `for (i = 0; i < bytes_received; i++)` over the memory
at `buffer`. -/
inductive ScanResult where
  | found
  | not_found
  | fault
  deriving DecidableEq, Repr

/-- The `for` loop that looks for `'\n'` in `buffer[0 .. bytes_received)`. The
first argument is the memory from `buffer[i]` on, the second the number of
indices still to visit; running off the modelled memory is a fault. -/
def scan_newline : List Byte → Nat → ScanResult
  | _, 0 => ScanResult.not_found
  | [], _ + 1 => ScanResult.fault
  | b :: rest, n + 1 => if b = NEWLINE then ScanResult.found else scan_newline rest n

/-- One iteration of the receive loop of `handle_connection`, from the `recv`
call to the `if (packet_complete) break;`. `k` numbers the iteration. -/
def recv_iteration (env : Env) (k : Nat) (st : HState) (r : RecvResult) : Step :=
  let ret : Int :=
    match r with
    | RecvResult.error => -1
    | RecvResult.data bytes => ((bytes.take BUFFER_SIZE).length : Int)
  let mem : List Byte :=
    match r with
    | RecvResult.error => st.mem
    | RecvResult.data bytes =>
      bytes.take BUFFER_SIZE ++ st.mem.drop (bytes.take BUFFER_SIZE).length
  let bytes_received : Nat := to_size_t ret
  let st := { st with mem := mem, trace := st.trace ++ [Event.recv ret] }
  if ((bytes_received : Nat) : Int) < 0 then
    Step.returned (finish (st.emit [Event.syslog, Event.close_data]))
  else if bytes_received = 0 then
    Step.leave st
  else
    let written : List Byte :=
      match env.write_res k with
      | none => []
      | some n => st.mem.take (min n bytes_received)
    let bytes_written : Int :=
      match env.write_res k with
      | none => -1
      | some _ => (written.length : Int)
    let st := { st with
      log := st.log ++ written
      trace := st.trace ++ [Event.lock, Event.write bytes_received bytes_written, Event.unlock] }
    if bytes_written ≠ to_ssize_t bytes_received then
      Step.returned (finish (st.emit [Event.syslog, Event.close_data]))
    else
      match scan_newline st.mem bytes_received with
      | ScanResult.found => Step.leave st
      | ScanResult.not_found => Step.next st
      | ScanResult.fault => Step.fault st

/-- The receive loop `while (!signal_received) { ... }`. The list holds what the
successive `recv` calls return; when it is used up the next `recv` never
returns. -/
def recv_loop (env : Env) : Nat → List RecvResult → HState → Step
  | k, [], st => if env.signal_recv k then Step.leave st else Step.blocked st
  | k, r :: rs, st =>
    if env.signal_recv k then Step.leave st
    else
      match recv_iteration env k st r with
      | Step.next st1 => recv_loop env (k + 1) rs st1
      | other => other

/-- The reply loop `while (!signal_received && bytes_to_read > 0) { ... }`, one
unit of fuel per test of the condition. `j` numbers the iteration and `pos` is
the file offset of `data_fd`. -/
def reply_loop (env : Env) : Nat → Nat → Nat → Int → HState → Step
  | 0, _, _, _, st => Step.out_of_fuel st
  | fuel + 1, j, pos, bytes_to_read, st =>
    if !env.signal_reply j && decide (bytes_to_read > 0) then
      let read_size : Nat :=
        to_size_t (if bytes_to_read < (BUFFER_SIZE : Int) then bytes_to_read
          else (BUFFER_SIZE : Int))
      match env.read_res j with
      | none =>
        Step.returned (finish (st.emit
          [Event.read read_size (-1), Event.syslog, Event.close_data, Event.unlock]))
      | some n =>
        let data := (st.log.drop pos).take (min n read_size)
        let bytes_read : Int := (data.length : Int)
        let st := { st with
          mem := data ++ st.mem.drop data.length
          trace := st.trace ++ [Event.read read_size bytes_read] }
        if bytes_read = 0 then
          Step.leave st
        else
          let bytes_to_read := bytes_to_read - bytes_read
          let accepted : List Byte :=
            match env.send_res j with
            | none => []
            | some m => st.mem.take (min m data.length)
          let bytes_sent : Int :=
            match env.send_res j with
            | none => -1
            | some _ => (accepted.length : Int)
          let st := { st with
            sent := st.sent ++ accepted
            trace := st.trace ++ [Event.send data.length bytes_sent] }
          if bytes_sent ≠ bytes_read then
            Step.returned (finish (st.emit [Event.syslog, Event.close_data, Event.unlock]))
          else
            reply_loop env fuel (j + 1) (pos + data.length) bytes_to_read st
    else
      Step.leave st

/-- The part of `handle_connection` after the receive loop: `fsync`, `close`,
then under `file_mutex` the reopening of the file, the two `lseek` calls and the
reply loop, and the final `close`/`unlock`/`syslog`. -/
def reply_phase (env : Env) (st : HState) : Step :=
  let st := st.emit [Event.fsync, Event.close_data, Event.lock, Event.open_read env.open_read]
  if !env.open_read then
    Step.returned (finish (st.emit [Event.syslog, Event.unlock]))
  else
    let file_size : Nat := st.log.length
    let st := st.emit [Event.lseek, Event.lseek]
    match reply_loop env (file_size + 1) 0 0 (file_size : Int) st with
    | Step.leave st1 =>
      Step.returned (finish (st1.emit [Event.close_data, Event.unlock, Event.syslog]))
    | other => other

/-- The function `handle_connection`: `log0` is the content of `DATA_FILE` and
`mem0` the (uninitialised) memory at `buffer` when the handler starts, `recvs`
what the successive `recv` calls return. `node->thread_complete` starts false,
as `main` sets it before creating the thread. -/
def handle_connection (env : Env) (recvs : List RecvResult) (log0 mem0 : List Byte) : Step :=
  let st0 : HState :=
    { log := log0, mem := mem0, sent := [], thread_complete := false
      trace := [Event.open_append env.open_append] }
  if !env.open_append then
    Step.returned (finish (st0.emit [Event.syslog]))
  else
    match recv_loop env 0 recvs st0 with
    | Step.leave st => reply_phase env st
    | other => other

/-- The state a stretch ends in. -/
def Step.state : Step → HState
  | Step.next st => st
  | Step.leave st => st
  | Step.returned st => st
  | Step.blocked st => st
  | Step.fault st => st
  | Step.out_of_fuel st => st

/-- An environment in which the shutdown flag is never seen set and every call
of `open`, `write`, `read` and `send` succeeds in full. -/
def all_succeed : Env :=
  { signal_recv := fun _ => false
    signal_reply := fun _ => false
    open_append := true
    write_res := fun _ => some BUFFER_SIZE
    open_read := true
    read_res := fun _ => some BUFFER_SIZE
    send_res := fun _ => some BUFFER_SIZE }

/-- The bytes of an ASCII string. -/
def bytes_of (s : String) : List Byte := s.toList.map Char.toNat

/-- Every call succeeds in full and the shutdown flag is never seen set: `open`
succeeds both times, each `write`, `read` and `send` transfers all the bytes it
is asked for (requests never exceed `BUFFER_SIZE` on this path). -/
def Env.succeeds (env : Env) : Prop :=
  (∀ k, env.signal_recv k = false) ∧
  (∀ j, env.signal_reply j = false) ∧
  env.open_append = true ∧
  env.open_read = true ∧
  (∀ k, ∃ n, env.write_res k = some n ∧ BUFFER_SIZE ≤ n) ∧
  (∀ j, ∃ n, env.read_res j = some n ∧ BUFFER_SIZE ≤ n) ∧
  (∀ j, ∃ n, env.send_res j = some n ∧ BUFFER_SIZE ≤ n)

/-- A chunk as `recv` can deliver it: between 1 and `BUFFER_SIZE` bytes. -/
def is_chunk (c : List Byte) : Prop := 0 < c.length ∧ c.length ≤ BUFFER_SIZE

instance is_chunk_decidable (c : List Byte) : Decidable (is_chunk c) := by
  unfold is_chunk; infer_instance

/-! ## Several handlers on one data file -/

/-- Where a handler thread stands between two of its atomic stretches. -/
inductive Phase where
  | start
  | receiving (k : Nat)
  | replying
  | ended
  | faulted
  deriving DecidableEq, Repr

/-- One handler thread: its environment, what its `recv` calls will still
return, where it stands, and its private state (the `log` field of `st` is the
file content as this thread last left it). -/
structure Worker where
  env : Env
  recvs : List RecvResult
  phase : Phase
  st : HState

/-- A new thread for a connection, as `main` creates it. -/
def new_worker (env : Env) (recvs : List RecvResult) (mem0 : List Byte) : Worker :=
  { env := env, recvs := recvs, phase := Phase.start
    st := { log := [], mem := mem0, sent := [], thread_complete := false, trace := [] } }

/-- One atomic stretch of a handler on the shared file content `log`: the
initial `open`; or one test of the receive loop with one iteration (whose
`write` runs under `file_mutex`); or the whole reply phase (which holds
`file_mutex` throughout). A thread whose `recv` has nothing to return waits. -/
def worker_step (log : List Byte) (w : Worker) : List Byte × Worker :=
  match w.phase with
  | Phase.start =>
    let st0 : HState := { w.st with log := log, trace := [Event.open_append w.env.open_append] }
    if !w.env.open_append then
      (log, { w with phase := Phase.ended, st := finish (st0.emit [Event.syslog]) })
    else
      (log, { w with phase := Phase.receiving 0, st := st0 })
  | Phase.receiving k =>
    if w.env.signal_recv k then
      (log, { w with phase := Phase.replying })
    else
      match w.recvs with
      | [] => (log, w)
      | r :: rs =>
        match recv_iteration w.env k { w.st with log := log } r with
        | Step.next st => (st.log, { w with recvs := rs, phase := Phase.receiving (k + 1), st := st })
        | Step.leave st => (st.log, { w with recvs := rs, phase := Phase.replying, st := st })
        | Step.returned st => (st.log, { w with recvs := rs, phase := Phase.ended, st := st })
        | other => (other.state.log, { w with recvs := rs, phase := Phase.faulted, st := other.state })
  | Phase.replying =>
    match reply_phase w.env { w.st with log := log } with
    | Step.returned st => (log, { w with phase := Phase.ended, st := st })
    | other => (log, { w with phase := Phase.faulted, st := other.state })
  | Phase.ended => (log, w)
  | Phase.faulted => (log, w)

/-- The server with its handler threads: the content of `DATA_FILE` and the
threads. -/
structure Sys where
  log : List Byte
  workers : List Worker

/-- The scheduler lets thread `i` run its next atomic stretch. -/
def sys_step (s : Sys) (i : Nat) : Sys :=
  match s.workers[i]? with
  | none => s
  | some w =>
    let r := worker_step s.log w
    { log := r.1, workers := s.workers.set i r.2 }

/-- Runs a schedule: the threads take their stretches in the listed order. -/
def run_schedule (s : Sys) (sched : List Nat) : Sys :=
  sched.foldl sys_step s

/-- The chunks a thread will still append to the file when every call
succeeds: the data its pending `recv` calls deliver, while it is still
receiving. -/
def pending_chunks (w : Worker) : List (List Byte) :=
  match w.phase with
  | Phase.start => w.recvs.filterMap (fun r => match r with
      | RecvResult.data b => some b
      | RecvResult.error => none)
  | Phase.receiving _ => w.recvs.filterMap (fun r => match r with
      | RecvResult.data b => some b
      | RecvResult.error => none)
  | _ => []

/-- A record split into `recv` chunks: every chunk has 1 to `BUFFER_SIZE`
bytes, the last chunk holds a newline and no earlier one does. -/
def well_chunked : List (List Byte) → Prop
  | [] => False
  | [c] => is_chunk c ∧ NEWLINE ∈ c
  | c :: cs => is_chunk c ∧ NEWLINE ∉ c ∧ well_chunked cs

/-- The thread serving a client whose record arrives as `chunks`. -/
def client_worker (env : Env) (mem0 : List Byte) (chunks : List (List Byte)) : Worker :=
  new_worker env (chunks.map RecvResult.data) mem0

/-- The state after an iteration that receives the chunk `c` and writes it in
full. -/
def after_chunk (st : HState) (c : List Byte) : HState :=
  { log := st.log ++ c
    mem := c ++ st.mem.drop c.length
    sent := st.sent
    thread_complete := st.thread_complete
    trace := st.trace ++ [Event.recv (c.length : Int), Event.lock,
      Event.write c.length (c.length : Int), Event.unlock] }


/-- The prefix of a chunk up to and including its first newline byte, the
notion the interface description uses for a record ("bytes up to and including
the delimiter"); the whole chunk when it holds no newline. -/
def first_record : List Byte → List Byte
  | [] => []
  | b :: rest => if b = NEWLINE then [b] else b :: first_record rest

/-- The completion flag is still false and no store to it has happened. -/
def Clean (st : HState) : Prop :=
  st.thread_complete = false ∧ Event.set_complete ∉ st.trace

/-- The completion flag is true, the store to it is the last event, and it is
the only such store. -/
def Finished (st : HState) : Prop :=
  st.thread_complete = true ∧
    ∃ ops, st.trace = ops ++ [Event.set_complete] ∧ Event.set_complete ∉ ops

/-- A stretch that returned from the handler ends `Finished`; any other ends
`Clean`. -/
def StepOK : Step → Prop
  | Step.returned st => Finished st
  | Step.next st => Clean st
  | Step.leave st => Clean st
  | Step.blocked st => Clean st
  | Step.fault st => Clean st
  | Step.out_of_fuel st => Clean st

/-- Twelve entries of sizes 1 to 12 at distinct addresses, two more than the
buffer holds. -/
def sample_entries : List aesd_buffer_entry :=
  (List.range 12).map (fun i => ⟨1000 + i, i + 1⟩)

/-- A client of the concurrent scenario: the environment its handler runs in,
the memory its handler finds at `buffer`, and the `recv` chunks its record
arrives in. -/
structure Client where
  env : Env
  mem0 : List Byte
  chunks : List (List Byte)

/-- The handler thread created for a client. -/
def Client.worker (c : Client) : Worker :=
  client_worker c.env c.mem0 c.chunks

/-- The record a client submits: its chunks end to end. -/
def Client.record (c : Client) : List Byte :=
  c.chunks.flatten

/-- A handler whose calls all succeed and which, while it still receives, has
a well-chunked rest of a record ahead of it. -/
def GoodWorker (w : Worker) : Prop :=
  (∀ k, w.env.signal_recv k = false) ∧
  w.env.open_append = true ∧
  (∀ k, ∃ n, w.env.write_res k = some n ∧ BUFFER_SIZE ≤ n) ∧
  ((w.phase = Phase.start ∨ ∃ k, w.phase = Phase.receiving k) →
    ∃ cs, w.recvs = cs.map RecvResult.data ∧ well_chunked cs)

/-- The list `xs` is a merge of the lists `ls`: it consists of the elements of
all the lists, the elements of each list in that list's order. Either every
list is empty and so is `xs`, or the first element of `xs` is the head of one
of the lists and the rest of `xs` is a merge of what remains. -/
inductive Interleaving {α : Type} : List (List α) → List α → Prop where
  | done (ls : List (List α)) : (∀ l ∈ ls, l = []) → Interleaving ls []
  | take (ls : List (List α)) (i : Nat) (x : α) (l xs : List α) :
      ls[i]? = some (x :: l) → Interleaving (ls.set i l) xs → Interleaving ls (x :: xs)

/-- The invariant of a run of the handlers from the log `L0`: every thread is a
`GoodWorker`, the log is `L0` followed by the chunks written so far, and
whenever the chunks still pending are merged in some way after the written
ones, the whole is a merge of the chunk sequences `total` of the clients. -/
def SysInv (L0 : List Byte) (total : List (List (List Byte))) (s : Sys) : Prop :=
  (∀ w ∈ s.workers, GoodWorker w) ∧
  ∃ written, s.log = L0 ++ written.flatten ∧
    ∀ rest, Interleaving (s.workers.map pending_chunks) rest →
      Interleaving total (written ++ rest)

/-- Two clients whose records "hello\n" and "world\n" each arrive in one
chunk. -/
def whole_clients : List Client :=
  [⟨all_succeed, [], [bytes_of "hello\n"]⟩, ⟨all_succeed, [], [bytes_of "world\n"]⟩]

/-- Two clients with the same records, the first record arriving in the two
chunks "he" and "llo\n". -/
def split_clients : List Client :=
  [⟨all_succeed, [], [bytes_of "he", bytes_of "llo\n"]⟩, ⟨all_succeed, [], [bytes_of "world\n"]⟩]

/-- A schedule that lets the two handlers take turns until both have ended. -/
def alternating : List Nat := [0, 1, 0, 1, 0, 1, 0, 1]

/-- One handler running alone on the file for `n` stretches. -/
def solo (env : Env) (recvs : List RecvResult) (log0 mem0 : List Byte) (n : Nat) : Sys :=
  run_schedule { log := log0, workers := [new_worker env recvs mem0] } (List.replicate n 0)

/-- Three entries whose sizes are valid `size_t` values but sum to more than
`2 ^ 64`: sizes 10, `2 ^ 64 - 5` and 100. -/
def wrapping_entries : List aesd_buffer_entry :=
  [⟨1000, 10⟩, ⟨2000, 2 ^ 64 - 5⟩, ⟨3000, 100⟩]
/-! ## Theorems: worker registry -/

theorem join_completed_threads_registry (l : List thread_node) :
    (join_completed_threads l).1 = l.filter (fun n => !n.thread_complete) := by
  induction l with
  | nil => rfl
  | cons n rest ih =>
    by_cases h : n.thread_complete = true
    · simp [join_completed_threads, h, ih]
    · simp [join_completed_threads, h, ih]

theorem joinedIds_append (a b : List RegEvent) :
    joinedIds (a ++ b) = joinedIds a ++ joinedIds b := by
  induction a with
  | nil => rfl
  | cons e es ih => cases e <;> simp [joinedIds, ih]

theorem closedFds_append (a b : List RegEvent) :
    closedFds (a ++ b) = closedFds a ++ closedFds b := by
  induction a with
  | nil => rfl
  | cons e es ih => cases e <;> simp [closedFds, ih]

theorem join_completed_threads_joined (l : List thread_node) :
    joinedIds (join_completed_threads l).2 =
      (l.filter (fun n => n.thread_complete)).map (fun n => n.thread_id) := by
  induction l with
  | nil => rfl
  | cons n rest ih =>
    by_cases h : n.thread_complete = true
    · by_cases hfd : n.client_fd = -1
      · simp [join_completed_threads, h, hfd, joinedIds, ih]
      · simp [join_completed_threads, h, hfd, joinedIds, ih]
    · simp [join_completed_threads, h, ih]

theorem join_completed_threads_closed (l : List thread_node) :
    closedFds (join_completed_threads l).2 =
      ((l.filter (fun n => n.thread_complete)).filter (fun n => n.client_fd ≠ -1)).map
        (fun n => n.client_fd) := by
  induction l with
  | nil => rfl
  | cons n rest ih =>
    by_cases h : n.thread_complete = true
    · by_cases hfd : n.client_fd = -1
      · simp [join_completed_threads, h, hfd, closedFds, ih]
      · simp [join_completed_threads, h, hfd, closedFds, ih]
    · simp [join_completed_threads, h, ih]

/-- C7: for every registry list, `join_completed_threads` leaves exactly the
records whose completion flag is false, in their original order; the threads it
joins are exactly those of the removed records (flag true), and the sockets it
closes are exactly the sockets of the removed records, `client_fd = -1` being
the value that stands for "no socket". When every record holds a socket, the
closed descriptors are those of all the removed records. -/
theorem join_completed_threads_spec (l : List thread_node) :
    (join_completed_threads l).1 = l.filter (fun n => !n.thread_complete) ∧
    joinedIds (join_completed_threads l).2 =
      (l.filter (fun n => n.thread_complete)).map (fun n => n.thread_id) ∧
    closedFds (join_completed_threads l).2 =
      ((l.filter (fun n => n.thread_complete)).filter (fun n => n.client_fd ≠ -1)).map
        (fun n => n.client_fd) ∧
    ((∀ n ∈ l, n.client_fd ≠ -1) →
      closedFds (join_completed_threads l).2 =
        (l.filter (fun n => n.thread_complete)).map (fun n => n.client_fd)) := by
  refine ⟨join_completed_threads_registry l, join_completed_threads_joined l,
    join_completed_threads_closed l, ?_⟩
  intro hall
  rw [join_completed_threads_closed]
  congr 1
  apply List.filter_eq_self.mpr
  intro n hn
  have := hall n (List.mem_of_mem_filter hn)
  simpa using this

/-- C7, at a registry of three records of which the first and last are
complete. -/
theorem join_completed_threads_spec_witness :
    (∀ n ∈ ([⟨11, 4, true⟩, ⟨12, 5, false⟩, ⟨13, 6, true⟩] : List thread_node),
        n.client_fd ≠ -1) ∧
    (join_completed_threads [⟨11, 4, true⟩, ⟨12, 5, false⟩, ⟨13, 6, true⟩]).1
      = [⟨12, 5, false⟩] ∧
    joinedIds (join_completed_threads [⟨11, 4, true⟩, ⟨12, 5, false⟩, ⟨13, 6, true⟩]).2
      = [11, 13] ∧
    closedFds (join_completed_threads [⟨11, 4, true⟩, ⟨12, 5, false⟩, ⟨13, 6, true⟩]).2
      = [4, 6] := by
  have h := join_completed_threads_spec [⟨11, 4, true⟩, ⟨12, 5, false⟩, ⟨13, 6, true⟩]
  have hall : ∀ n ∈ ([⟨11, 4, true⟩, ⟨12, 5, false⟩, ⟨13, 6, true⟩] : List thread_node),
      n.client_fd ≠ -1 := by decide
  exact ⟨hall, by rw [h.1]; decide, by rw [h.2.1]; decide, by rw [h.2.2.2 hall]; decide⟩

/-- What `cleanup_threads` does on every registry: it leaves the registry
empty, and the threads it joins are exactly those of the records whose
completion flag was false. -/
theorem cleanup_threads_joined (l : List thread_node) :
    (cleanup_threads l).1 = [] ∧
    joinedIds (cleanup_threads l).2 =
      (l.filter (fun n => !n.thread_complete)).map (fun n => n.thread_id) := by
  refine ⟨rfl, ?_⟩
  show joinedIds (cleanup_loop l) = _
  induction l with
  | nil => rfl
  | cons n rest ih =>
    by_cases h : n.thread_complete = true <;> by_cases hfd : n.client_fd = 1 <;>
      simp [cleanup_loop, h, hfd, joinedIds, joinedIds_append, ih]

/-- C8, the failing input: a registry holding one record whose handler has
already set its completion flag. `cleanup_threads` empties the registry and
frees the record without ever calling `pthread_join` on its thread. -/
theorem cleanup_threads_skips_completed :
    (cleanup_threads [⟨21, 7, true⟩]).1 = [] ∧
    joinedIds (cleanup_threads [⟨21, 7, true⟩]).2 = [] ∧
    (cleanup_threads [⟨21, 7, true⟩]).2 = [RegEvent.close 7, RegEvent.free 21] := by
  decide

/-! ## Theorems: connection handler -/

theorem to_size_t_natCast (n : Nat) (h : n < SIZE_MOD) : to_size_t (n : Int) = n := by
  unfold to_size_t
  have h1 : ((n : Int) % (SIZE_MOD : Int)) = (n : Int) :=
    Int.emod_eq_of_lt (Int.natCast_nonneg n) (by exact_mod_cast h)
  rw [h1]; simp

theorem to_ssize_t_small (n : Nat) (h : n < SIZE_MOD / 2) : to_ssize_t n = (n : Int) := by
  unfold to_ssize_t
  have h2 : n < SIZE_MOD := by unfold SIZE_MOD at *; omega
  rw [Nat.mod_eq_of_lt h2]
  simp [h]

theorem scan_newline_chunk (c rest : List Byte) :
    scan_newline (c ++ rest) c.length =
      if NEWLINE ∈ c then ScanResult.found else ScanResult.not_found := by
  induction c with
  | nil => simp [scan_newline]
  | cons b bs ih =>
    by_cases hb : b = NEWLINE
    · simp [scan_newline, hb]
    · have hb2 : ¬ NEWLINE = b := fun h => hb h.symm
      simp [scan_newline, hb, hb2, ih]

theorem recv_iteration_chunk (env : Env) (k : Nat) (st : HState) (c : List Byte)
    (hc : is_chunk c) (hw : ∃ n, env.write_res k = some n ∧ BUFFER_SIZE ≤ n) :
    recv_iteration env k st (RecvResult.data c) =
      if NEWLINE ∈ c then Step.leave (after_chunk st c) else Step.next (after_chunk st c) := by
  obtain ⟨n, hn, hle⟩ := hw
  obtain ⟨hpos, hlen⟩ := hc
  have hB : BUFFER_SIZE = 1024 := rfl
  have htake : c.take BUFFER_SIZE = c := List.take_of_length_le hlen
  have hsz : to_size_t (c.length : Int) = c.length :=
    to_size_t_natCast _ (by unfold SIZE_MOD; omega)
  have hssz : to_ssize_t c.length = (c.length : Int) :=
    to_ssize_t_small _ (by unfold SIZE_MOD; omega)
  have hmin : min n c.length = c.length := by omega
  have hne : c.length ≠ 0 := by omega
  have hne2 : c ≠ [] := by intro h; simp [h] at hpos
  unfold recv_iteration
  simp only [htake, hsz, hn, hmin, hssz]
  have hnn : ¬ ((c.length : Nat) : Int) < 0 := by omega
  simp only [hnn, hne, if_false, List.take_left', List.length_append, ne_eq, not_true,
    scan_newline_chunk]
  simp [after_chunk]
  by_cases hnl : NEWLINE ∈ c <;> simp [hnl]


theorem recv_iteration_closed (env : Env) (k : Nat) (st : HState) :
    recv_iteration env k st (RecvResult.data []) =
      Step.leave { st with trace := st.trace ++ [Event.recv 0] } := by
  unfold recv_iteration
  simp [to_size_t]

/-- Receiving chunks without a newline keeps the loop going: after them the
loop continues on the remaining `recv` results, the log extended by the
chunks. -/
theorem recv_loop_no_newline (env : Env) (hsig : ∀ k, env.signal_recv k = false)
    (hw : ∀ k, ∃ n, env.write_res k = some n ∧ BUFFER_SIZE ≤ n)
    (cs : List (List Byte)) :
    ∀ (k : Nat) (st : HState) (rest : List RecvResult),
      (∀ c ∈ cs, is_chunk c ∧ NEWLINE ∉ c) →
      ∃ st1, recv_loop env k (cs.map RecvResult.data ++ rest) st
          = recv_loop env (k + cs.length) rest st1 ∧
        st1.log = st.log ++ cs.flatten ∧ st1.sent = st.sent ∧
        st1.thread_complete = st.thread_complete := by
  induction cs with
  | nil => intro k st rest _; exact ⟨st, by simp, by simp, rfl, rfl⟩
  | cons c cs ih =>
    intro k st rest hcs
    have hc := hcs c (List.mem_cons_self _ _)
    obtain ⟨st1, h1, h2, h3, h4⟩ := ih (k + 1) (after_chunk st c) rest
      (fun d hd => hcs d (List.mem_cons_of_mem _ hd))
    refine ⟨st1, ?_, ?_, ?_, ?_⟩
    · simp only [List.map_cons, List.cons_append, recv_loop, hsig]
      rw [recv_iteration_chunk env k st c hc.1 (hw k)]
      simp only [hc.2, if_false, Bool.false_eq_true, List.append_eq]
      rw [h1]
      simp only [List.length_cons]
      congr 1; omega
    · rw [h2]; simp [after_chunk]
    · rw [h3]; simp [after_chunk]
    · rw [h4]; simp [after_chunk]

theorem read_size_eq (btr : Nat) :
    to_size_t (if (btr : Int) < (BUFFER_SIZE : Int) then (btr : Int) else (BUFFER_SIZE : Int))
      = min btr BUFFER_SIZE := by
  have hB : BUFFER_SIZE = 1024 := rfl
  by_cases h : btr < BUFFER_SIZE
  · have h' : (btr : Int) < (BUFFER_SIZE : Int) := by exact_mod_cast h
    rw [if_pos h', to_size_t_natCast _ (by unfold SIZE_MOD; omega)]
    omega
  · have h' : ¬ (btr : Int) < (BUFFER_SIZE : Int) := by exact_mod_cast h
    rw [if_neg h', to_size_t_natCast _ (by unfold SIZE_MOD; omega)]
    omega

/-- With the flag unset, reads that deliver at least one byte and sends that
take every block whole, the reply loop runs to the end of the file and the
peer has been sent everything from the starting offset on. -/
theorem reply_loop_complete (env : Env)
    (hsig : ∀ j, env.signal_reply j = false)
    (hr : ∀ j, ∃ n, env.read_res j = some n ∧ 1 ≤ n)
    (hs : ∀ j, ∃ m, env.send_res j = some m ∧ BUFFER_SIZE ≤ m) :
    ∀ (fuel j pos btr : Nat) (st : HState),
      pos + btr = st.log.length → btr < fuel →
      ∃ st1, reply_loop env fuel j pos (btr : Int) st = Step.leave st1 ∧
        st1.log = st.log ∧ st1.sent = st.sent ++ st.log.drop pos ∧
        st1.thread_complete = st.thread_complete := by
  intro fuel
  induction fuel with
  | zero => intro j pos btr st _ h; omega
  | succ fuel ih =>
    intro j pos btr st hpos hfuel
    by_cases hz : btr = 0
    · subst hz
      refine ⟨st, ?_, rfl, ?_, rfl⟩
      · simp [reply_loop]
      · have : st.log.length ≤ pos := by omega
        simp [List.drop_of_length_le this]
    · obtain ⟨n, hn, hn1⟩ := hr j
      obtain ⟨m, hm, hm1⟩ := hs j
      have hB : BUFFER_SIZE = 1024 := rfl
      have hbpos : (btr : Int) > 0 := by omega
      set data := (st.log.drop pos).take (min n (min btr BUFFER_SIZE)) with hdata
      have hlen : data.length = min n (min btr BUFFER_SIZE) := by
        rw [hdata, List.length_take, List.length_drop]; omega
      have hlen1 : 1 ≤ data.length := by omega
      have hlen2 : data.length ≤ btr := by omega
      have hlen3 : data.length ≤ BUFFER_SIZE := by omega
      obtain ⟨st1, h1, h2, h3, h4⟩ := ih (j + 1) (pos + data.length) (btr - data.length)
        { st with
          mem := data ++ st.mem.drop data.length
          sent := st.sent ++ data
          trace := st.trace ++ [Event.read (min btr BUFFER_SIZE) (data.length : Int)]
            ++ [Event.send data.length (data.length : Int)] }
        (by simp only; omega) (by omega)
      refine ⟨st1, ?_, h2, ?_, h4⟩
      · rw [reply_loop]
        simp only [hsig, hbpos, read_size_eq, hn, hm, ← hdata]
        have hne : ¬ ((data.length : Nat) : Int) = 0 := by omega
        have hmin : min m data.length = data.length := by omega
        have hcast : (btr : Int) - (data.length : Int) = ((btr - data.length : Nat) : Int) := by
          omega
        simp only [hne, hmin, hcast, List.take_left', Bool.not_false, decide_True,
          Bool.and_self, if_true, if_false, ne_eq, not_true]
        rw [← h1]
      · rw [h3]
        simp only [List.append_assoc]
        congr 1
        have e := List.take_append_drop (min n (min btr BUFFER_SIZE)) (st.log.drop pos)
        rw [← hdata, ← hlen, List.drop_drop] at e
        simpa [Nat.add_comm] using e

theorem reply_phase_complete (env : Env)
    (hopen : env.open_read = true)
    (hsig : ∀ j, env.signal_reply j = false)
    (hr : ∀ j, ∃ n, env.read_res j = some n ∧ 1 ≤ n)
    (hs : ∀ j, ∃ m, env.send_res j = some m ∧ BUFFER_SIZE ≤ m) (st : HState) :
    ∃ st1, reply_phase env st = Step.returned st1 ∧ st1.log = st.log ∧
      st1.sent = st.sent ++ st.log ∧ st1.thread_complete = true := by
  obtain ⟨st1, h1, h2, h3, _⟩ := reply_loop_complete env hsig hr hs (st.log.length + 1) 0 0
    st.log.length
    ((st.emit [Event.fsync, Event.close_data, Event.lock, Event.open_read env.open_read]).emit
      [Event.lseek, Event.lseek])
    (by simp [HState.emit]) (by omega)
  refine ⟨finish (st1.emit [Event.close_data, Event.unlock, Event.syslog]), ?_, ?_, ?_, ?_⟩
  · unfold reply_phase
    simp only [hopen, Bool.not_true, Bool.false_eq_true, if_false]
    simp only [HState.emit] at h1 ⊢
    simp only [hopen] at h1
    rw [h1]
  · simp [finish, HState.emit, h2]
  · simp [finish, HState.emit, h3]
  · simp [finish]

/-- C6 (as amended): for every file content and every pattern of results in
which the flag is not set, each read delivers at least one byte and each `send`
accepts the whole block it is given, the reply phase returns having delivered
exactly the complete snapshot, in order, after what was sent before. -/
theorem reply_phase_sends_snapshot (env : Env) (st : HState)
    (hopen : env.open_read = true)
    (hsig : ∀ j, env.signal_reply j = false)
    (hr : ∀ j, ∃ n, env.read_res j = some n ∧ 1 ≤ n)
    (hs : ∀ j, ∃ m, env.send_res j = some m ∧ BUFFER_SIZE ≤ m) :
    ∃ st1, reply_phase env st = Step.returned st1 ∧ st1.sent = st.sent ++ st.log := by
  obtain ⟨st1, h1, _, h3, _⟩ := reply_phase_complete env hopen hsig hr hs st
  exact ⟨st1, h1, h3⟩

/-- C6 (as amended), at a two-byte file read one byte at a time. -/
theorem reply_phase_sends_snapshot_witness :
    ({ all_succeed with read_res := fun _ => some 1 } : Env).open_read = true ∧
    (∀ j, ({ all_succeed with read_res := fun _ => some 1 } : Env).signal_reply j = false) ∧
    (∀ j, ∃ n, ({ all_succeed with read_res := fun _ => some 1 } : Env).read_res j = some n
      ∧ 1 ≤ n) ∧
    (∀ j, ∃ m, ({ all_succeed with read_res := fun _ => some 1 } : Env).send_res j = some m
      ∧ BUFFER_SIZE ≤ m) ∧
    ∃ st1, reply_phase { all_succeed with read_res := fun _ => some 1 }
        ⟨[97, 98], [], [], false, []⟩ = Step.returned st1 ∧ st1.sent = [] ++ [97, 98] :=
  ⟨rfl, fun _ => rfl, fun _ => ⟨1, rfl, Nat.le_refl 1⟩, fun _ => ⟨BUFFER_SIZE, rfl, Nat.le_refl _⟩,
    reply_phase_sends_snapshot _ _ rfl (fun _ => rfl) (fun _ => ⟨1, rfl, Nat.le_refl 1⟩)
      (fun _ => ⟨BUFFER_SIZE, rfl, Nat.le_refl _⟩)⟩

/-- C6, counterexample: the file holds two bytes, the flag is unset, the read
succeeds and the one `send` call accepts 1 of the 2 bytes offered (a partial
send, no error). The handler then takes its "Send failed" exit: the peer has
received one byte, not the snapshot. -/
theorem short_send_counterexample :
    (∃ m, ({ all_succeed with send_res := fun _ => some 1 } : Env).send_res 0 = some m ∧
      1 ≤ m ∧ m ≤ 2) ∧
    (reply_phase { all_succeed with send_res := fun _ => some 1 }
        ⟨[97, 98], [], [], false, []⟩).state.sent = [97] ∧
    (reply_phase { all_succeed with send_res := fun _ => some 1 }
        ⟨[97, 98], [], [], false, []⟩).state.sent ≠ [97, 98] := by
  refine ⟨⟨1, rfl, by decide, by decide⟩, by decide, by decide⟩

theorem all_succeed_succeeds : all_succeed.succeeds :=
  ⟨fun _ => rfl, fun _ => rfl, rfl, rfl, fun _ => ⟨BUFFER_SIZE, rfl, Nat.le_refl _⟩,
    fun _ => ⟨BUFFER_SIZE, rfl, Nat.le_refl _⟩, fun _ => ⟨BUFFER_SIZE, rfl, Nat.le_refl _⟩⟩

theorem succeeds_reads (env : Env) (h : env.succeeds) :
    ∀ j, ∃ n, env.read_res j = some n ∧ 1 ≤ n := by
  intro j
  obtain ⟨n, hn, hle⟩ := h.2.2.2.2.2.1 j
  exact ⟨n, hn, by unfold BUFFER_SIZE at hle; omega⟩

/-- C1: for every initial log content `L` and every sequence of chunks
`cs ++ [c]` of 1 to 1024 bytes each in which `c` is the first to hold a
newline, when the flag is unset and every `open`, `write`, `read` and `send`
succeeds in full (and the handler is the only writer), `handle_connection`
returns, the log is `L` followed by all the chunks, and the bytes sent to the
client are exactly that whole log. -/
theorem handle_connection_appends_then_replies (env : Env) (hs : env.succeeds)
    (L mem0 : List Byte) (cs : List (List Byte)) (c : List Byte) (rest : List RecvResult)
    (hcs : ∀ d ∈ cs, is_chunk d ∧ NEWLINE ∉ d) (hc : is_chunk c) (hnl : NEWLINE ∈ c) :
    ∃ st, handle_connection env ((cs ++ [c]).map RecvResult.data ++ rest) L mem0
        = Step.returned st ∧
      st.log = L ++ (cs ++ [c]).flatten ∧ st.sent = L ++ (cs ++ [c]).flatten := by
  obtain ⟨hsr, hsp, ho1, ho2, hw, _, hsd⟩ := hs
  obtain ⟨st1, h1, h2, h3, _⟩ := recv_loop_no_newline env hsr hw cs 0
    { log := L, mem := mem0, sent := [], thread_complete := false
      trace := [Event.open_append env.open_append] }
    (RecvResult.data c :: rest) hcs
  obtain ⟨st2, k1, k2, k3, _⟩ := reply_phase_complete env ho2 hsp
    (succeeds_reads env ⟨hsr, hsp, ho1, ho2, hw, ‹_›, hsd⟩) hsd (after_chunk st1 c)
  refine ⟨st2, ?_, ?_, ?_⟩
  · unfold handle_connection
    simp only [ho1, Bool.not_true, Bool.false_eq_true, if_false, List.map_append, List.map_cons,
      List.map_nil, List.append_assoc, List.singleton_append]
    rw [ho1] at h1
    rw [h1]
    simp only [recv_loop, hsr, Bool.false_eq_true, if_false]
    rw [recv_iteration_chunk env _ st1 c hc (hw _)]
    simp only [hnl, if_true]
    exact k1
  · rw [k2]; simp [after_chunk, h2]
  · rw [k3]; simp [after_chunk, h2, h3]

/-- C1, first scenario: empty log, client sends "hello\n". -/
theorem handle_connection_appends_then_replies_witness :
    all_succeed.succeeds ∧
    (∀ d ∈ ([] : List (List Byte)), is_chunk d ∧ NEWLINE ∉ d) ∧
    is_chunk (bytes_of "hello\n") ∧ NEWLINE ∈ bytes_of "hello\n" ∧
    ∃ st, handle_connection all_succeed
        ((([] : List (List Byte)) ++ [bytes_of "hello\n"]).map RecvResult.data ++ []) [] []
          = Step.returned st ∧
      st.log = [] ++ (([] : List (List Byte)) ++ [bytes_of "hello\n"]).flatten ∧
      st.sent = [] ++ (([] : List (List Byte)) ++ [bytes_of "hello\n"]).flatten :=
  ⟨all_succeed_succeeds, by simp, by decide, by decide,
    handle_connection_appends_then_replies all_succeed all_succeed_succeeds [] [] []
      (bytes_of "hello\n") [] (by simp) (by decide) (by decide)⟩

/-- The two scenarios evaluated: empty log and "hello\n" give log and reply
"hello\n"; then log "hello\n" and "world\n" give log and reply
"hello\nworld\n". -/
theorem hello_world_scenario :
    (handle_connection all_succeed [RecvResult.data (bytes_of "hello\n")] [] []).state.log
      = bytes_of "hello\n" ∧
    (handle_connection all_succeed [RecvResult.data (bytes_of "hello\n")] [] []).state.sent
      = bytes_of "hello\n" ∧
    (handle_connection all_succeed [RecvResult.data (bytes_of "world\n")]
      (bytes_of "hello\n") []).state.log = bytes_of "hello\nworld\n" ∧
    (handle_connection all_succeed [RecvResult.data (bytes_of "world\n")]
      (bytes_of "hello\n") []).state.sent = bytes_of "hello\nworld\n" := by
  decide

/-- C3 (as amended): when the client sends chunks `cs` none of which holds a
newline and then closes (`recv` returns 0), the flag being unset and every
call succeeding, `handle_connection` appends the partial data to the log and
then still runs its reply phase: it returns having sent the client the whole
log, the partial data included. -/
theorem handle_connection_peer_closed (env : Env) (hs : env.succeeds)
    (L mem0 : List Byte) (cs : List (List Byte)) (rest : List RecvResult)
    (hcs : ∀ d ∈ cs, is_chunk d ∧ NEWLINE ∉ d) :
    ∃ st, handle_connection env (cs.map RecvResult.data ++ RecvResult.data [] :: rest) L mem0
        = Step.returned st ∧
      st.log = L ++ cs.flatten ∧ st.sent = L ++ cs.flatten := by
  obtain ⟨hsr, hsp, ho1, ho2, hw, hrd, hsd⟩ := hs
  obtain ⟨st1, h1, h2, h3, _⟩ := recv_loop_no_newline env hsr hw cs 0
    { log := L, mem := mem0, sent := [], thread_complete := false
      trace := [Event.open_append env.open_append] }
    (RecvResult.data [] :: rest) hcs
  obtain ⟨st2, k1, k2, k3, _⟩ := reply_phase_complete env ho2 hsp
    (succeeds_reads env ⟨hsr, hsp, ho1, ho2, hw, hrd, hsd⟩) hsd
    { st1 with trace := st1.trace ++ [Event.recv 0] }
  refine ⟨st2, ?_, ?_, ?_⟩
  · unfold handle_connection
    simp only [ho1, Bool.not_true, Bool.false_eq_true, if_false]
    rw [ho1] at h1
    rw [h1]
    simp only [recv_loop, hsr, Bool.false_eq_true, if_false]
    rw [recv_iteration_closed]
    exact k1
  · rw [k2]; simp [h2]
  · rw [k3]; simp [h2, h3]

/-- C3 (as amended), at a log "x\n" and a client that sends "abc" and closes. -/
theorem handle_connection_peer_closed_witness :
    all_succeed.succeeds ∧
    (∀ d ∈ [bytes_of "abc"], is_chunk d ∧ NEWLINE ∉ d) ∧
    ∃ st, handle_connection all_succeed
        ([bytes_of "abc"].map RecvResult.data ++ RecvResult.data [] :: []) (bytes_of "x\n") []
          = Step.returned st ∧
      st.log = bytes_of "x\n" ++ [bytes_of "abc"].flatten ∧
      st.sent = bytes_of "x\n" ++ [bytes_of "abc"].flatten :=
  ⟨all_succeed_succeeds, by decide,
    handle_connection_peer_closed all_succeed all_succeed_succeeds (bytes_of "x\n") [] _ []
      (by decide)⟩

/-- C3, counterexample: the log holds "x\n", the client sends "abc" (no
newline) and closes. The handler returns having sent the client the six bytes
"x\nabc", not zero bytes. -/
theorem peer_closed_reply_counterexample :
    (handle_connection all_succeed [RecvResult.data (bytes_of "abc"), RecvResult.data []]
      (bytes_of "x\n") []).state.sent = bytes_of "x\nabc" ∧
    (handle_connection all_succeed [RecvResult.data (bytes_of "abc"), RecvResult.data []]
      (bytes_of "x\n") []).state.sent ≠ [] ∧
    (handle_connection all_succeed [RecvResult.data (bytes_of "abc"), RecvResult.data []]
      (bytes_of "x\n") []).state.log = bytes_of "x\nabc" := by
  decide

/-- C5 (as amended): for every received chunk of 1 to 1024 bytes that holds a
newline, when the `write` succeeds in full, the bytes the iteration appends to
the shared log are exactly the whole chunk, the bytes after its first newline
included, and the receive loop is left. -/
theorem recv_iteration_appends_whole_chunk (env : Env) (k : Nat) (st : HState)
    (c : List Byte) (hc : is_chunk c) (hnl : NEWLINE ∈ c)
    (hw : ∃ n, env.write_res k = some n ∧ BUFFER_SIZE ≤ n) :
    ∃ st1, recv_iteration env k st (RecvResult.data c) = Step.leave st1 ∧
      st1.log = st.log ++ c := by
  refine ⟨after_chunk st c, ?_, rfl⟩
  rw [recv_iteration_chunk env k st c hc hw]
  simp [hnl]

/-- C5 (as amended), at the chunk "a\nb". -/
theorem recv_iteration_appends_whole_chunk_witness :
    is_chunk (bytes_of "a\nb") ∧ NEWLINE ∈ bytes_of "a\nb" ∧
    (∃ n, all_succeed.write_res 0 = some n ∧ BUFFER_SIZE ≤ n) ∧
    ∃ st1, recv_iteration all_succeed 0 ⟨bytes_of "x\n", [], [], false, []⟩
        (RecvResult.data (bytes_of "a\nb")) = Step.leave st1 ∧
      st1.log = bytes_of "x\n" ++ bytes_of "a\nb" :=
  ⟨by decide, by decide, ⟨BUFFER_SIZE, rfl, Nat.le_refl _⟩,
    recv_iteration_appends_whole_chunk all_succeed 0 _ _ (by decide) (by decide)
      ⟨BUFFER_SIZE, rfl, Nat.le_refl _⟩⟩

/-- C5, counterexample: the chunk "a\nb" carries a byte after its first newline.
The iteration appends all three bytes to the log, not the two-byte prefix
"a\n" that ends at the newline. -/
theorem trailing_bytes_counterexample :
    NEWLINE ∈ bytes_of "a\nb" ∧
    first_record (bytes_of "a\nb") = bytes_of "a\n" ∧
    (recv_iteration all_succeed 0 ⟨[], [], [], false, []⟩
      (RecvResult.data (bytes_of "a\nb"))).state.log = bytes_of "a\nb" ∧
    (recv_iteration all_succeed 0 ⟨[], [], [], false, []⟩
      (RecvResult.data (bytes_of "a\nb"))).state.log
        ≠ [] ++ first_record (bytes_of "a\nb") := by
  decide

/-- After a failed `recv` the unsigned `bytes_received` is `2^64 - 1`: the test
`bytes_received < 0` is false, the iteration goes on to `write` with that count
and the log gains whatever the kernel then copies from the memory at
`buffer`. -/
theorem recv_iteration_error (env : Env) (k : Nat) (st : HState) :
    to_size_t (-1) = 2 ^ 64 - 1 ∧
    (recv_iteration env k st RecvResult.error).state.log =
      st.log ++ (match env.write_res k with
        | none => []
        | some n => st.mem.take (min n (2 ^ 64 - 1))) ∧
    ∃ ret, (recv_iteration env k st RecvResult.error).state.trace.take (st.trace.length + 3)
      = st.trace ++ [Event.recv (-1), Event.lock, Event.write (2 ^ 64 - 1) ret] := by
  have hsz : to_size_t (-1) = 2 ^ 64 - 1 := by decide
  refine ⟨hsz, ?_, ?_⟩
  · unfold recv_iteration
    simp only [hsz]
    split
    · omega
    · split
      · omega
      · split <;> [skip; split] <;> cases hw : env.write_res k <;> simp [finish, HState.emit, Step.state]
  · unfold recv_iteration
    simp only [hsz]
    split
    · omega
    · split
      · omega
      · refine ⟨(match env.write_res k with
          | none => -1
          | some n => ((st.mem.take (min n (2 ^ 64 - 1))).length : Int)), ?_⟩
        split <;> [skip; split] <;> cases hw : env.write_res k <;>
          simp [finish, HState.emit, Step.state, List.take_append_eq_append_take]

/-- C4, the failing input evaluated: the log holds "x\n", the first `recv`
fails, the memory at `buffer` holds the five bytes "stack". With the kernel
ready to write, the handler calls `write` with count `2^64 - 1`, the five
bytes land in the log, and only the short-write test makes it return. When the
`write` fails too, `-1 == (ssize_t)bytes_received` passes that test, the scan
runs over the stale memory (here "st\nack") and the handler goes on to send
the log to the client. -/
theorem recv_error_path_not_taken :
    handle_connection all_succeed [RecvResult.error] (bytes_of "x\n") (bytes_of "stack")
      = Step.returned
        { log := bytes_of "x\nstack", mem := bytes_of "stack", sent := [],
          thread_complete := true,
          trace := [Event.open_append true, Event.recv (-1), Event.lock,
            Event.write 18446744073709551615 5, Event.unlock, Event.syslog,
            Event.close_data, Event.set_complete] } ∧
    (handle_connection { all_succeed with write_res := fun _ => none } [RecvResult.error]
      (bytes_of "x\n") (bytes_of "st\nack")).state.trace
      = [Event.open_append true, Event.recv (-1), Event.lock,
          Event.write 18446744073709551615 (-1), Event.unlock, Event.fsync, Event.close_data,
          Event.lock, Event.open_read true, Event.lseek, Event.lseek, Event.read 2 2,
          Event.send 2 2, Event.close_data, Event.unlock, Event.syslog, Event.set_complete] ∧
    (handle_connection { all_succeed with write_res := fun _ => none } [RecvResult.error]
      (bytes_of "x\n") (bytes_of "st\nack")).state.sent = bytes_of "x\n" := by
  decide

theorem finished_finish (st : HState) (h : Clean st) : Finished (finish st) :=
  ⟨rfl, st.trace, rfl, h.2⟩

theorem clean_update (st : HState) (h : Clean st) (log mem sent : List Byte)
    (es : List Event) (hes : Event.set_complete ∉ es) :
    Clean { log := log, mem := mem, sent := sent, thread_complete := st.thread_complete,
            trace := st.trace ++ es } := by
  refine ⟨h.1, ?_⟩
  simp only [List.mem_append, not_or]
  exact ⟨h.2, hes⟩

theorem clean_emit (st : HState) (h : Clean st) (es : List Event)
    (hes : Event.set_complete ∉ es) : Clean (st.emit es) :=
  clean_update st h st.log st.mem st.sent es hes

theorem recv_iteration_ok (env : Env) (k : Nat) (st : HState) (r : RecvResult)
    (h : Clean st) : StepOK (recv_iteration env k st r) := by
  have hc : ∀ (ret : Int) (n : Nat) (w : Int) (log mem : List Byte),
      Clean { log := log, mem := mem, sent := st.sent,
              thread_complete := st.thread_complete,
              trace := st.trace ++ [Event.recv ret]
                ++ [Event.lock, Event.write n w, Event.unlock] } := by
    intro ret n w log mem
    have := clean_update st h log mem st.sent
      ([Event.recv ret] ++ [Event.lock, Event.write n w, Event.unlock]) (by simp)
    simpa using this
  have hr : ∀ (ret : Int) (mem : List Byte),
      Clean { log := st.log, mem := mem, sent := st.sent,
              thread_complete := st.thread_complete,
              trace := st.trace ++ [Event.recv ret] } :=
    fun ret mem => clean_update st h _ _ _ _ (by simp)
  have hfin : ∀ s : HState, Clean s →
      StepOK (Step.returned (finish (s.emit [Event.syslog, Event.close_data]))) :=
    fun s hs => finished_finish _ (clean_emit _ hs _ (by simp))
  cases r <;> cases hw : env.write_res k <;>
    (unfold recv_iteration; simp only [hw]; repeat' split) <;>
    first
      | exact hfin _ (hc _ _ _ _ _)
      | exact hfin _ (hr _ _)
      | exact hc _ _ _ _ _
      | exact hr _ _

theorem recv_loop_ok (env : Env) (rs : List RecvResult) :
    ∀ (k : Nat) (st : HState), Clean st → StepOK (recv_loop env k rs st) := by
  induction rs with
  | nil =>
    intro k st h
    unfold recv_loop
    split <;> exact h
  | cons r rs ih =>
    intro k st h
    unfold recv_loop
    split
    · exact h
    · have hit := recv_iteration_ok env k st r h
      split
      · next st1 heq => rw [heq] at hit; exact ih _ _ hit
      · exact hit

theorem reply_loop_ok (env : Env) :
    ∀ (fuel j pos : Nat) (btr : Int) (st : HState),
      Clean st → StepOK (reply_loop env fuel j pos btr st) := by
  intro fuel
  induction fuel with
  | zero => intro j pos btr st h; exact h
  | succ fuel ih =>
    intro j pos btr st h
    have hrd : ∀ (n : Nat) (w : Int) (mem : List Byte),
        Clean { log := st.log, mem := mem, sent := st.sent,
                thread_complete := st.thread_complete,
                trace := st.trace ++ [Event.read n w] } :=
      fun n w mem => clean_update st h _ _ _ _ (by simp)
    have hsd : ∀ (n : Nat) (w : Int) (m : Nat) (v : Int) (mem sent : List Byte),
        Clean { log := st.log, mem := mem, sent := sent,
                thread_complete := st.thread_complete,
                trace := st.trace ++ [Event.read n w] ++ [Event.send m v] } := by
      intro n w m v mem sent
      have := clean_update st h st.log mem sent ([Event.read n w] ++ [Event.send m v])
        (by simp)
      simpa using this
    have hfin : ∀ s : HState, Clean s →
        StepOK (Step.returned (finish (s.emit [Event.syslog, Event.close_data, Event.unlock]))) :=
      fun s hs => finished_finish _ (clean_emit _ hs _ (by simp))
    have hfin2 : ∀ (n : Nat),
        StepOK (Step.returned (finish (st.emit
          [Event.read n (-1), Event.syslog, Event.close_data, Event.unlock]))) :=
      fun n => finished_finish _ (clean_emit _ h _ (by simp))
    cases hr : env.read_res j <;> cases hs : env.send_res j <;>
      (unfold reply_loop; simp only [hr, hs]; repeat' split) <;>
      first
        | exact hfin2 _
        | exact hfin _ (hsd _ _ _ _ _ _)
        | exact ih _ _ _ _ (hsd _ _ _ _ _ _)
        | exact hrd _ _ _
        | exact h

theorem reply_phase_ok (env : Env) (st : HState) (h : Clean st) :
    StepOK (reply_phase env st) := by
  have h1 := clean_emit st h
    [Event.fsync, Event.close_data, Event.lock, Event.open_read env.open_read] (by simp)
  unfold reply_phase
  simp only
  split
  · exact finished_finish _ (clean_emit _ h1 _ (by simp))
  · have h2 := clean_emit _ h1 [Event.lseek, Event.lseek] (by simp)
    have h3 := reply_loop_ok env (st.log.length + 1) 0 0 (st.log.length : Int) _ h2
    split
    · next st1 heq =>
      simp only [HState.emit] at heq h3
      rw [heq] at h3
      exact finished_finish _ (clean_emit _ h3 _ (by simp))
    · exact h3

theorem handle_connection_ok (env : Env) (recvs : List RecvResult) (log0 mem0 : List Byte) :
    StepOK (handle_connection env recvs log0 mem0) := by
  have h0 : Clean ⟨log0, mem0, [], false, [Event.open_append env.open_append]⟩ :=
    ⟨rfl, by simp⟩
  unfold handle_connection
  simp only
  split
  · exact finished_finish _ (clean_emit _ h0 _ (by simp))
  · have h1 := recv_loop_ok env recvs 0 _ h0
    split
    · next st heq => rw [heq] at h1; exact reply_phase_ok env st h1
    · exact h1

/-- With more fuel than bytes left to read, the reply loop ends by leaving the
loop or by returning from the handler: it never runs out of fuel. -/
theorem reply_loop_ends (env : Env) :
    ∀ (fuel j pos : Nat) (btr : Int) (st : HState), 0 < fuel → btr < (fuel : Int) →
      (∃ st1, reply_loop env fuel j pos btr st = Step.leave st1) ∨
      (∃ st1, reply_loop env fuel j pos btr st = Step.returned st1) := by
  intro fuel
  induction fuel with
  | zero => intro j pos btr st h; omega
  | succ fuel ih =>
    intro j pos btr st _ h
    cases hr : env.read_res j <;> cases hs : env.send_res j <;>
      (unfold reply_loop; simp only [hr, hs]) <;>
      split_ifs with h1 h2 <;>
      first
        | exact Or.inl ⟨_, rfl⟩
        | exact Or.inr ⟨_, rfl⟩
        | (simp only [Bool.and_eq_true, decide_eq_true_eq] at h1
           apply ih
           · omega
           · omega)

theorem reply_phase_returns (env : Env) (st : HState) :
    ∃ st1, reply_phase env st = Step.returned st1 := by
  unfold reply_phase
  simp only
  split
  · exact ⟨_, rfl⟩
  · rcases reply_loop_ends env (st.log.length + 1) 0 0 (st.log.length : Int)
      ((st.emit [Event.fsync, Event.close_data, Event.lock, Event.open_read env.open_read]).emit
        [Event.lseek, Event.lseek]) (by omega) (by omega) with ⟨st1, h⟩ | ⟨st1, h⟩
    · simp only [HState.emit] at h ⊢
      rw [h]; exact ⟨_, rfl⟩
    · simp only [HState.emit] at h ⊢
      rw [h]; exact ⟨_, rfl⟩

theorem recv_loop_ends (env : Env) (rs : List RecvResult) :
    ∀ (k : Nat) (st : HState),
      (∃ st1, recv_loop env k rs st = Step.leave st1) ∨
      (∃ st1, recv_loop env k rs st = Step.returned st1) ∨
      (∃ st1, recv_loop env k rs st = Step.blocked st1) ∨
      (∃ st1, recv_loop env k rs st = Step.fault st1) := by
  induction rs with
  | nil =>
    intro k st
    unfold recv_loop
    split
    · exact Or.inl ⟨_, rfl⟩
    · exact Or.inr (Or.inr (Or.inl ⟨_, rfl⟩))
  | cons r rs ih =>
    intro k st
    unfold recv_loop
    split
    · exact Or.inl ⟨_, rfl⟩
    · split
      · exact ih _ _
      · next other hne =>
        have : ∀ s, recv_iteration env k st r ≠ Step.blocked s ∧
            recv_iteration env k st r ≠ Step.out_of_fuel s := by
          intro s
          cases r <;> cases hw : env.write_res k <;>
            (unfold recv_iteration; simp only [hw]; repeat' split) <;> simp
        cases hit : recv_iteration env k st r with
        | next s => exact absurd hit (hne s)
        | leave s => exact Or.inl ⟨_, rfl⟩
        | returned s => exact Or.inr (Or.inl ⟨_, rfl⟩)
        | blocked s => exact absurd hit (this s).1
        | fault s => exact Or.inr (Or.inr (Or.inr ⟨_, rfl⟩))
        | out_of_fuel s => exact absurd hit (this s).2

/-- The handler returns, or waits for ever in a `recv` that never returns, or
faults in the scan of the buffer; until it returns the completion flag is false
and has not been stored to. -/
theorem handle_connection_outcomes (env : Env) (recvs : List RecvResult)
    (log0 mem0 : List Byte) :
    (∃ st, handle_connection env recvs log0 mem0 = Step.returned st ∧ Finished st) ∨
    (∃ st, handle_connection env recvs log0 mem0 = Step.blocked st ∧ Clean st) ∨
    (∃ st, handle_connection env recvs log0 mem0 = Step.fault st ∧ Clean st) := by
  have hok := handle_connection_ok env recvs log0 mem0
  have hcases : (∃ st, handle_connection env recvs log0 mem0 = Step.returned st) ∨
      (∃ st, handle_connection env recvs log0 mem0 = Step.blocked st) ∨
      (∃ st, handle_connection env recvs log0 mem0 = Step.fault st) := by
    unfold handle_connection
    simp only
    split
    · exact Or.inl ⟨_, rfl⟩
    · rcases recv_loop_ends env recvs 0
        ⟨log0, mem0, [], false, [Event.open_append env.open_append]⟩
        with ⟨s, h⟩ | ⟨s, h⟩ | ⟨s, h⟩ | ⟨s, h⟩
      · rw [h]; exact Or.inl (reply_phase_returns env s)
      · rw [h]; exact Or.inl ⟨_, rfl⟩
      · rw [h]; exact Or.inr (Or.inl ⟨_, rfl⟩)
      · rw [h]; exact Or.inr (Or.inr ⟨_, rfl⟩)
  rcases hcases with ⟨s, h⟩ | ⟨s, h⟩ | ⟨s, h⟩
  · exact Or.inl ⟨s, h, by rw [h] at hok; exact hok⟩
  · exact Or.inr (Or.inl ⟨s, h, by rw [h] at hok; exact hok⟩)
  · exact Or.inr (Or.inr ⟨s, h, by rw [h] at hok; exact hok⟩)

/-- C10: for every execution of `handle_connection` that returns, whatever the
outcomes of `open`, `recv`, `write`, `read` and `send` and whatever the values
of the shutdown flag, the completion flag is true on return, the store that
sets it is the last event of the run (no socket or file operation follows
it), and no earlier event of the run is a store to it. -/
theorem thread_complete_set_once_at_end (env : Env) (recvs : List RecvResult)
    (log0 mem0 : List Byte) (st : HState)
    (h : handle_connection env recvs log0 mem0 = Step.returned st) :
    st.thread_complete = true ∧
    ∃ ops, st.trace = ops ++ [Event.set_complete] ∧ Event.set_complete ∉ ops := by
  have hok := handle_connection_ok env recvs log0 mem0
  rw [h] at hok
  exact hok

/-- C10, at a run in which the reading `open` fails after a chunk was
received. -/
theorem thread_complete_set_once_at_end_witness :
    ∃ st, handle_connection { all_succeed with open_read := false }
        [RecvResult.data (bytes_of "hi\n")] [] [] = Step.returned st ∧
      st.thread_complete = true ∧
      ∃ ops, st.trace = ops ++ [Event.set_complete] ∧ Event.set_complete ∉ ops :=
  ⟨(handle_connection { all_succeed with open_read := false }
      [RecvResult.data (bytes_of "hi\n")] [] []).state, by decide,
    thread_complete_set_once_at_end { all_succeed with open_read := false }
      [RecvResult.data (bytes_of "hi\n")] [] [] _ (by decide)⟩

/-! ## Theorems: circular buffer -/

theorem stores_init : Stores aesd_circular_buffer_init [] := by
  refine ⟨by simp [aesd_circular_buffer_init], by decide, by decide, by decide, by decide, ?_⟩
  intro j hj
  simp at hj

theorem stores_add (b : aesd_circular_buffer) (K : List aesd_buffer_entry)
    (e : aesd_buffer_entry) (h : Stores b K) :
    Stores (aesd_circular_buffer_add_entry b e)
      (if K.length = AESDCHAR_MAX_WRITE_OPERATIONS_SUPPORTED then K.tail ++ [e]
       else K ++ [e]) := by
  have hN : AESDCHAR_MAX_WRITE_OPERATIONS_SUPPORTED = 10 := rfl
  simp only [Stores, hN] at h ⊢
  simp only [aesd_circular_buffer_add_entry, hN]
  obtain ⟨hlen, hout, hK, hin, hfull, hent⟩ := h
  by_cases hk : K.length = 10
  · have hf : b.full = true := hfull.mpr hk
    have hin0 : b.in_offs = b.out_offs := by rw [hin, hk]; omega
    simp only [hk, if_true, hf, hin0]
    refine ⟨by simp [hlen], by omega, by simp [hk], by simp [hk], by simp [hk], ?_⟩
    intro j hj
    simp only [List.length_append, List.length_tail, hk, List.length_singleton] at hj
    by_cases hj9 : j = 9
    · subst hj9
      have hidx : ((b.out_offs + 1) % 10 + 9) % 10 = b.out_offs := by omega
      rw [hidx, List.getElem?_set_self (by omega)]
      rw [List.getElem?_append_right (by simp [hk])]
      simp [hk]
    · have hne : b.out_offs ≠ ((b.out_offs + 1) % 10 + j) % 10 := by omega
      rw [List.getElem?_set_ne hne]
      have hidx : ((b.out_offs + 1) % 10 + j) % 10 = (b.out_offs + (j + 1)) % 10 := by omega
      rw [hidx, hent (j + 1) (by omega)]
      rw [List.getElem?_append_left (by simp [hk]; omega)]
      simp
  · have hf : b.full = false := by
      cases hb : b.full
      · rfl
      · exact absurd (hfull.mp hb) hk
    simp only [hk, if_false, hf, Bool.false_eq_true]
    refine ⟨by simp [hlen], hout, by simp; omega, by simp; omega, ?_, ?_⟩
    · simp only [List.length_append, List.length_singleton]
      constructor
      · intro h1
        split at h1
        · omega
        · simp at h1
      · intro h1
        rw [if_pos (by omega)]
    · intro j hj
      simp only [List.length_append, List.length_singleton] at hj
      by_cases hjl : j = K.length
      · subst hjl
        rw [← hin, List.getElem?_set_self (by rw [hin, hlen]; omega)]
        simp
      · have hne : b.in_offs ≠ (b.out_offs + j) % 10 := by rw [hin]; omega
        rw [List.getElem?_set_ne hne, hent j (by omega)]
        rw [List.getElem?_append_left (by omega)]

theorem last_entries_snoc (es : List aesd_buffer_entry) (e : aesd_buffer_entry) :
    last_entries (es ++ [e]) =
      if (last_entries es).length = AESDCHAR_MAX_WRITE_OPERATIONS_SUPPORTED
      then (last_entries es).tail ++ [e] else last_entries es ++ [e] := by
  have hN : AESDCHAR_MAX_WRITE_OPERATIONS_SUPPORTED = 10 := rfl
  simp only [last_entries, hN, List.length_append, List.length_singleton, List.length_drop]
  by_cases h : es.length < 10
  · have h1 : es.length - 10 = 0 := by omega
    have h2 : es.length + 1 - 10 = 0 := by omega
    have h3 : ¬ es.length - (es.length - 10) = 10 := by omega
    have h5 : ¬ es.length = 10 := by omega
    simp [h1, h2, h5]
  · have h3 : es.length - (es.length - 10) = 10 := by omega
    have h4 : es.length + 1 - 10 = es.length - 10 + 1 := by omega
    rw [if_pos h3, List.tail_drop, h4, List.drop_append_of_le_length (by omega)]

theorem stores_buffer_after (es : List aesd_buffer_entry) :
    Stores (buffer_after es) (last_entries es) := by
  induction es using List.reverseRecOn with
  | nil => exact stores_init
  | append_singleton es e ih =>
    have h := stores_add (buffer_after es) (last_entries es) e ih
    rw [← last_entries_snoc] at h
    simpa [buffer_after, List.foldl_append] using h

theorem total_size_take_succ (K : List aesd_buffer_entry) (j : Nat) (hj : j < K.length) :
    total_size (K.take (j + 1)) = total_size (K.take j) + K[j].size := by
  unfold total_size
  rw [List.take_succ, List.getElem?_eq_getElem hj]
  simp only [Option.toList, List.map_append, List.sum_append, List.map_cons, List.map_nil,
    List.sum_cons, List.sum_nil, Nat.add_zero]

theorem total_size_take_le (K : List aesd_buffer_entry) (j : Nat) :
    total_size (K.take j) ≤ total_size K := by
  have h : total_size K = total_size (K.take j) + total_size (K.drop j) := by
    conv_lhs => rw [← List.take_append_drop j K]
    simp [total_size]
  omega

theorem find_loop_spec (b : aesd_circular_buffer) (K : List aesd_buffer_entry)
    (h : Stores b K) (char_offset rtn : Nat)
    (hco : char_offset < SIZE_MOD) (hsz : total_size K < SIZE_MOD) :
    ∀ (fuel j : Nat), j < K.length → K.length - j ≤ fuel →
      total_size (K.take j) ≤ char_offset →
      (char_offset < total_size K →
        ∃ (i : Nat) (hi : i < K.length) (o : Nat),
          find_loop b char_offset rtn fuel
              ((b.out_offs + j) % AESDCHAR_MAX_WRITE_OPERATIONS_SUPPORTED)
              (total_size (K.take j))
            = some ⟨some ((b.out_offs + i) % AESDCHAR_MAX_WRITE_OPERATIONS_SUPPORTED), o⟩ ∧
          total_size (K.take i) + o = char_offset ∧ o < K[i].size) ∧
      (total_size K ≤ char_offset →
        find_loop b char_offset rtn fuel
            ((b.out_offs + j) % AESDCHAR_MAX_WRITE_OPERATIONS_SUPPORTED)
            (total_size (K.take j))
          = some ⟨none, rtn⟩) := by
  have hN : AESDCHAR_MAX_WRITE_OPERATIONS_SUPPORTED = 10 := rfl
  have hS : SIZE_MOD = 18446744073709551616 := by norm_num [SIZE_MOD]
  obtain ⟨hlen, hout, hK, hin, hfull, hent⟩ := h
  rw [hN] at hlen hout hK hin hfull hent
  rw [hS] at hco hsz
  simp only [hN]
  intro fuel
  induction fuel with
  | zero => intro j hj hf; omega
  | succ fuel ih =>
    intro j hj hf hcur
    have hentry : b.entry.getD ((b.out_offs + j) % 10) default = K[j] := by
      rw [List.getD_eq_getElem?_getD, hent j hj, List.getElem?_eq_getElem hj]
      rfl
    have hsucc := total_size_take_succ K j hj
    have hle := total_size_take_le K (j + 1)
    rw [find_loop]
    simp only [hentry, hN, hS]
    have hmod : (total_size (K.take j) + K[j].size) % 18446744073709551616
        = total_size (K.take j) + K[j].size := by omega
    rw [hmod]
    by_cases hlt : char_offset < total_size (K.take j) + K[j].size
    · rw [if_pos hlt]
      constructor
      · intro _
        refine ⟨j, hj, char_offset - total_size (K.take j), ?_, by omega, by omega⟩
        congr 2
        omega
      · intro hge; omega
    · rw [if_neg hlt]
      by_cases hlast : j + 1 = K.length
      · have hidx : ((b.out_offs + j) % 10 + 1) % 10 = b.in_offs := by rw [hin]; omega
        rw [if_pos hidx]
        have hall : total_size (K.take (j + 1)) = total_size K := by
          rw [hlast, List.take_length]
        constructor
        · intro hlt2; omega
        · intro _; rfl
      · have hidx : ¬ ((b.out_offs + j) % 10 + 1) % 10 = b.in_offs := by rw [hin]; omega
        rw [if_neg hidx]
        have hidx2 : ((b.out_offs + j) % 10 + 1) % 10 = (b.out_offs + (j + 1)) % 10 := by omega
        rw [hidx2, ← hsucc]
        exact ih (j + 1) (by omega) (by omega) (by omega)

theorem total_size_take_mono (K : List aesd_buffer_entry) (a b : Nat) (h : a ≤ b) :
    total_size (K.take a) ≤ total_size (K.take b) := by
  have h1 := total_size_take_le (K.take b) a
  rw [List.take_take, Nat.min_eq_left h] at h1
  exact h1

/-- A position below the total size of `K` lies in exactly one entry of `K`:
the one whose predecessors end at or before it and which ends after it. -/
theorem containing_entry_exists (K : List aesd_buffer_entry) (c : Nat) :
    ∀ n, n ≤ K.length → c < total_size (K.take n) →
      ∃ i, i < n ∧ total_size (K.take i) ≤ c ∧ c < total_size (K.take (i + 1)) := by
  intro n
  induction n with
  | zero => intro _ h; simp [total_size] at h
  | succ n ih =>
    intro hn hc
    by_cases hlt : c < total_size (K.take n)
    · obtain ⟨i, hi, h1, h2⟩ := ih (by omega) hlt
      exact ⟨i, by omega, h1, h2⟩
    · exact ⟨n, by omega, by omega, hc⟩

/-- The loop finds the entry `K[i]` that contains `char_offset` as long as the
running offset does not wrap before that entry is passed, that is, the sizes
of `K[0..i]` sum to less than `2 ^ 64`. -/
theorem find_loop_found (b : aesd_circular_buffer) (K : List aesd_buffer_entry)
    (h : Stores b K) (char_offset rtn i : Nat) (hi : i < K.length)
    (hco : char_offset < SIZE_MOD)
    (hlo : total_size (K.take i) ≤ char_offset)
    (hhi : char_offset < total_size (K.take (i + 1)))
    (hsz : total_size (K.take (i + 1)) < SIZE_MOD) :
    ∀ (fuel j : Nat), j ≤ i → i - j < fuel →
      find_loop b char_offset rtn fuel
          ((b.out_offs + j) % AESDCHAR_MAX_WRITE_OPERATIONS_SUPPORTED)
          (total_size (K.take j))
        = some ⟨some ((b.out_offs + i) % AESDCHAR_MAX_WRITE_OPERATIONS_SUPPORTED),
            char_offset - total_size (K.take i)⟩ := by
  have hN : AESDCHAR_MAX_WRITE_OPERATIONS_SUPPORTED = 10 := rfl
  have hS : SIZE_MOD = 18446744073709551616 := by norm_num [SIZE_MOD]
  obtain ⟨hlen, hout, hK, hin, hfull, hent⟩ := h
  rw [hN] at hlen hout hK hin hfull hent
  rw [hS] at hco hsz
  simp only [hN]
  intro fuel
  induction fuel with
  | zero => intro j _ hf; omega
  | succ fuel ih =>
    intro j hj hf
    have hjl : j < K.length := by omega
    have hentry : b.entry.getD ((b.out_offs + j) % 10) default = K[j] := by
      rw [List.getD_eq_getElem?_getD, hent j hjl, List.getElem?_eq_getElem hjl]
      rfl
    have hsucc := total_size_take_succ K j hjl
    have hmono := total_size_take_mono K (j + 1) (i + 1) (by omega)
    rw [find_loop]
    simp only [hentry, hN, hS]
    have hmod : (total_size (K.take j) + K[j].size) % 18446744073709551616
        = total_size (K.take j) + K[j].size := by omega
    rw [hmod]
    by_cases hji : j = i
    · subst hji
      rw [if_pos (by omega)]
      congr 2
      omega
    · have hmono2 := total_size_take_mono K (j + 1) i (by omega)
      rw [if_neg (by omega)]
      have hidx : ¬ ((b.out_offs + j) % 10 + 1) % 10 = b.in_offs := by rw [hin]; omega
      rw [if_neg hidx]
      have hidx2 : ((b.out_offs + j) % 10 + 1) % 10 = (b.out_offs + (j + 1)) % 10 := by omega
      rw [hidx2, ← hsucc]
      exact ih (j + 1) (by omega) (by omega)

/-- C9 (as amended): after `aesd_circular_buffer_init` and the entries `es`
added in order, let `K` be the last `min n 10` of them. For every `char_offset`
(a `size_t`) and with fuel for the ten slots: if `char_offset` is less than the
total size of `K`, it lies in one entry `K[i]` of the concatenation, and
provided the sizes of `K[0..i]` sum to less than `2 ^ 64` (the running offset,
a `size_t`, has not wrapped) the search returns a slot holding `K[i]` and
stores an offset `o` with `o < K[i].size` and (sizes of the entries of `K`
before it) `+ o = char_offset`; if `char_offset` is at least the total size of
`K`, it returns `NULL` and leaves `*entry_offset_byte_rtn` as it was. -/
theorem find_entry_offset_for_fpos_spec (es : List aesd_buffer_entry)
    (char_offset rtn fuel : Nat)
    (hfuel : AESDCHAR_MAX_WRITE_OPERATIONS_SUPPORTED ≤ fuel)
    (hco : char_offset < SIZE_MOD) :
    (char_offset < total_size (last_entries es) →
      ∃ (i : Nat) (hi : i < (last_entries es).length),
        total_size ((last_entries es).take i) ≤ char_offset ∧
        char_offset < total_size ((last_entries es).take (i + 1)) ∧
        (total_size ((last_entries es).take (i + 1)) < SIZE_MOD →
          ∃ (idx o : Nat),
            aesd_circular_buffer_find_entry_offset_for_fpos fuel (buffer_after es)
              char_offset rtn = some ⟨some idx, o⟩ ∧
            (buffer_after es).entry[idx]? = some (last_entries es)[i] ∧
            o < (last_entries es)[i].size ∧
            total_size ((last_entries es).take i) + o = char_offset)) ∧
    (total_size (last_entries es) ≤ char_offset →
      aesd_circular_buffer_find_entry_offset_for_fpos fuel (buffer_after es) char_offset rtn
        = some ⟨none, rtn⟩) := by
  have hst := stores_buffer_after es
  have hN : AESDCHAR_MAX_WRITE_OPERATIONS_SUPPORTED = 10 := rfl
  generalize buffer_after es = b at hst ⊢
  generalize last_entries es = K at hst ⊢
  have hst2 := hst
  obtain ⟨hlen, hout, hK, hin, hfull, hent⟩ := hst2
  rw [hN] at hlen hout hK hin hfull hent hfuel
  have h0 : (b.out_offs + 0) % AESDCHAR_MAX_WRITE_OPERATIONS_SUPPORTED = b.out_offs := by
    rw [hN]; omega
  have ht0 : total_size (K.take 0) = 0 := by simp [total_size]
  have hcond : K ≠ [] → (!b.full && b.in_offs == b.out_offs) = false := by
    intro hne
    have hpos : 0 < K.length := List.length_pos.mpr hne
    cases hb : b.full
    · have hne : K.length ≠ 10 := fun hk => by
        have := hfull.mpr hk; rw [hb] at this; cases this
      have : b.in_offs ≠ b.out_offs := by rw [hin]; omega
      simp [this]
    · simp
  constructor
  · intro hlt
    obtain ⟨i, hi, hlo, hhi⟩ := containing_entry_exists K char_offset K.length
      (Nat.le_refl _) (by rw [List.take_length]; exact hlt)
    refine ⟨i, hi, hlo, hhi, ?_⟩
    intro hsz
    have hne : K ≠ [] := by intro hk; rw [hk] at hi; simp at hi
    have hfound := find_loop_found b K hst char_offset rtn i hi hco hlo hhi hsz fuel 0
      (Nat.zero_le _) (by omega)
    rw [h0, ht0] at hfound
    have hsucc := total_size_take_succ K i hi
    refine ⟨(b.out_offs + i) % AESDCHAR_MAX_WRITE_OPERATIONS_SUPPORTED,
      char_offset - total_size (K.take i), ?_, ?_, by omega, by omega⟩
    · unfold aesd_circular_buffer_find_entry_offset_for_fpos
      rw [hcond hne]
      simp only [Bool.false_eq_true, if_false]
      exact hfound
    · rw [hN, hent i hi, List.getElem?_eq_getElem hi]
  · intro hge
    by_cases hempty : K = []
    · subst hempty
      have hf : b.full = false := by
        cases hb : b.full
        · rfl
        · have := hfull.mp hb; simp at this
      have hio : b.in_offs = b.out_offs := by rw [hin]; simp; omega
      simp [aesd_circular_buffer_find_entry_offset_for_fpos, hf, hio]
    · have hpos : 0 < K.length := List.length_pos.mpr hempty
      have hspec := find_loop_spec b K hst char_offset rtn hco (by omega) fuel 0 hpos
        (by omega) (by simp [total_size])
      rw [h0, ht0] at hspec
      unfold aesd_circular_buffer_find_entry_offset_for_fpos
      rw [hcond hempty]
      simp only [Bool.false_eq_true, if_false]
      exact hspec.2 hge

/-- C9 (as amended), at twelve entries of sizes 1 to 12 and `char_offset = 10`:
the buffer keeps the last ten (sizes 3 to 12). -/
theorem find_entry_offset_for_fpos_spec_witness :
    AESDCHAR_MAX_WRITE_OPERATIONS_SUPPORTED ≤ 10 ∧ 10 < SIZE_MOD ∧
    ((10 < total_size (last_entries sample_entries) →
      ∃ (i : Nat) (hi : i < (last_entries sample_entries).length),
        total_size ((last_entries sample_entries).take i) ≤ 10 ∧
        10 < total_size ((last_entries sample_entries).take (i + 1)) ∧
        (total_size ((last_entries sample_entries).take (i + 1)) < SIZE_MOD →
          ∃ (idx o : Nat),
            aesd_circular_buffer_find_entry_offset_for_fpos 10 (buffer_after sample_entries)
              10 0 = some ⟨some idx, o⟩ ∧
            (buffer_after sample_entries).entry[idx]?
              = some (last_entries sample_entries)[i] ∧
            o < (last_entries sample_entries)[i].size ∧
            total_size ((last_entries sample_entries).take i) + o = 10)) ∧
    (total_size (last_entries sample_entries) ≤ 10 →
      aesd_circular_buffer_find_entry_offset_for_fpos 10 (buffer_after sample_entries) 10 0
        = some ⟨none, 0⟩)) :=
  ⟨by decide, by decide,
    find_entry_offset_for_fpos_spec sample_entries 10 0 10 (by decide) (by decide)⟩

/-- C9, counterexample: three entries of sizes 10, `2 ^ 64 - 5` and 100 are
added and `char_offset = 20` is looked up. The position is below the total
size and lies in the second entry, at byte 10. The running offset wraps to 5
when the second entry is passed, and the search returns the third entry (slot
2) with offset 15. -/
theorem running_offset_wrap_counterexample :
    (∀ e ∈ wrapping_entries, e.size < SIZE_MOD) ∧
    20 < total_size (last_entries wrapping_entries) ∧
    total_size ((last_entries wrapping_entries).take 1) ≤ 20 ∧
    20 < total_size ((last_entries wrapping_entries).take 2) ∧
    aesd_circular_buffer_find_entry_offset_for_fpos 10 (buffer_after wrapping_entries) 20 0
      = some ⟨some 2, 15⟩ ∧
    (buffer_after wrapping_entries).entry[2]? = some ⟨3000, 100⟩ ∧
    (buffer_after wrapping_entries).entry[2]? ≠ (last_entries wrapping_entries)[1]? ∧
    total_size ((last_entries wrapping_entries).take 2) + 15 ≠ 20 := by
  decide

/-- The sample evaluated: position 10 of the ten kept entries lies in the third
of them (size 5, stored in slot 4) at byte 3; position 75, the total size, is
not available and the offset is left untouched. -/
theorem find_entry_offset_sample :
    total_size (last_entries sample_entries) = 75 ∧
    aesd_circular_buffer_find_entry_offset_for_fpos 10 (buffer_after sample_entries) 10 0
      = some ⟨some 4, 3⟩ ∧
    (buffer_after sample_entries).entry[4]? = some ⟨1004, 5⟩ ∧
    aesd_circular_buffer_find_entry_offset_for_fpos 10 (buffer_after sample_entries) 75 7
      = some ⟨none, 7⟩ := by
  decide

/-! ## Theorems: several handlers on one data file -/

theorem filterMap_data (cs : List (List Byte)) :
    (cs.map RecvResult.data).filterMap (fun r => match r with
      | RecvResult.data b => some b
      | RecvResult.error => none) = cs := by
  induction cs with
  | nil => rfl
  | cons c cs ih => simp [List.filterMap_cons, ih]

theorem perm_flatMap_set {α β : Type} (f : α → List β) :
    ∀ (ws : List α) (i : Nat) (w w1 : α) (pre : List β),
      ws[i]? = some w → f w = pre ++ f w1 →
      (pre ++ (ws.set i w1).flatMap f).Perm (ws.flatMap f) := by
  intro ws
  induction ws with
  | nil => intro i w w1 pre h; simp at h
  | cons x xs ih =>
    intro i w w1 pre h hf
    cases i with
    | zero =>
      simp only [List.getElem?_cons_zero, Option.some.injEq] at h
      subst h
      simp only [List.set_cons_zero, List.flatMap_cons, hf, List.append_assoc]
      exact List.Perm.refl _
    | succ i =>
      simp only [List.getElem?_cons_succ] at h
      simp only [List.set_cons_succ, List.flatMap_cons]
      have h1 := ih i w w1 pre h hf
      have h2 : (pre ++ (f x ++ (xs.set i w1).flatMap f)).Perm
          (f x ++ (pre ++ (xs.set i w1).flatMap f)) := by
        rw [← List.append_assoc, ← List.append_assoc]
        exact List.Perm.append_right _ List.perm_append_comm
      exact h2.trans (List.Perm.append_left _ h1)

theorem worker_step_good (log : List Byte) (w : Worker) (h : GoodWorker w) :
    GoodWorker (worker_step log w).2 ∧
    ∃ pre, pending_chunks w = pre ++ pending_chunks (worker_step log w).2 ∧
      (worker_step log w).1 = log ++ pre.flatten := by
  obtain ⟨hsig, hopen, hwr, hrecv⟩ := h
  cases hp : w.phase with
  | start =>
    obtain ⟨cs, hcs, hwc⟩ := hrecv (Or.inl hp)
    unfold worker_step
    simp only [hp, hopen, Bool.not_true, Bool.false_eq_true, if_false]
    refine ⟨⟨hsig, hopen, hwr, fun _ => ⟨cs, hcs, hwc⟩⟩, [], ?_, by simp⟩
    simp [pending_chunks, hp]
  | receiving k =>
    obtain ⟨cs, hcs, hwc⟩ := hrecv (Or.inr ⟨k, hp⟩)
    have hpend : pending_chunks w = cs := by
      simp only [pending_chunks, hp, hcs]
      exact filterMap_data cs
    cases cs with
    | nil => exact hwc.elim
    | cons c cs1 =>
      cases cs1 with
      | nil =>
        obtain ⟨hc, hnl⟩ := hwc
        unfold worker_step
        simp only [hp, hsig, hcs, List.map_cons, List.map_nil, Bool.false_eq_true, if_false]
        rw [recv_iteration_chunk w.env k _ c hc (hwr k)]
        simp only [hnl, if_true]
        refine ⟨⟨hsig, hopen, hwr, ?_⟩, [c], ?_, by simp [after_chunk]⟩
        · intro hph
          rcases hph with hph | ⟨k1, hph⟩ <;> simp at hph
        · rw [hpend]; simp [pending_chunks]
      | cons d cs2 =>
        obtain ⟨hc, hnl, hrest⟩ := hwc
        unfold worker_step
        simp only [hp, hsig, hcs, List.map_cons, Bool.false_eq_true, if_false]
        rw [recv_iteration_chunk w.env k _ c hc (hwr k)]
        simp only [hnl, if_false]
        refine ⟨⟨hsig, hopen, hwr, fun _ => ⟨d :: cs2, by simp, hrest⟩⟩, [c], ?_,
          by simp [after_chunk]⟩
        rw [hpend]
        simp only [pending_chunks]
        have := filterMap_data (d :: cs2)
        simp only [List.map_cons] at this
        rw [this]
        rfl
  | replying =>
    obtain ⟨st1, h1⟩ := reply_phase_returns w.env { w.st with log := log }
    unfold worker_step
    simp only [hp, h1]
    refine ⟨⟨hsig, hopen, hwr, ?_⟩, [], ?_, by simp⟩
    · intro hph
      rcases hph with hph | ⟨k1, hph⟩ <;> simp at hph
    · simp [pending_chunks, hp]
  | ended =>
    unfold worker_step
    simp only [hp]
    refine ⟨⟨hsig, hopen, hwr, hrecv⟩, [], by simp, by simp⟩
  | faulted =>
    unfold worker_step
    simp only [hp]
    refine ⟨⟨hsig, hopen, hwr, hrecv⟩, [], by simp, by simp⟩

theorem interleaving_prepend {α : Type} (pre : List α) :
    ∀ (ls : List (List α)) (i : Nat) (l rest : List α),
      ls[i]? = some (pre ++ l) → Interleaving (ls.set i l) rest →
      Interleaving ls (pre ++ rest) := by
  induction pre with
  | nil =>
    intro ls i l rest h hint
    have hset : ls.set i l = ls := by
      apply List.ext_getElem?
      intro j
      by_cases hj : i = j
      · subst hj
        rw [List.getElem?_set_self (by
          rcases List.getElem?_eq_some.mp h with ⟨hlt, _⟩; exact hlt)]
        simpa using h.symm
      · rw [List.getElem?_set_ne hj]
    rw [hset] at hint
    simpa using hint
  | cons x pre ih =>
    intro ls i l rest h hint
    have hlt : i < ls.length := by
      rcases List.getElem?_eq_some.mp h with ⟨hlt, _⟩; exact hlt
    refine Interleaving.take ls i x (pre ++ l) (pre ++ rest) (by simpa using h) ?_
    apply ih (ls.set i (pre ++ l)) i l rest
    · rw [List.getElem?_set_self hlt]
    · rw [List.set_set]; exact hint

theorem interleaving_single {α : Type} (ls : List (List α)) (xs : List α)
    (h : Interleaving ls xs) : ∀ l, ls = [l] → xs = l := by
  induction h with
  | done ls hall =>
    intro l hl
    subst hl
    exact (hall l (List.mem_singleton_self l)).symm
  | take ls i x l xs hi _ ih =>
    intro l1 hl
    subst hl
    cases i with
    | zero =>
      simp only [List.getElem?_cons_zero, Option.some.injEq] at hi
      subst hi
      rw [ih l (by simp)]
    | succ i => simp at hi

theorem interleaving_perm {α : Type} (ls : List (List α)) (xs : List α)
    (h : Interleaving ls xs) : xs.Perm ls.flatten := by
  induction h with
  | done ls hall =>
    have : ls.flatten = [] := by
      induction ls with
      | nil => rfl
      | cons l ls ih =>
        rw [List.flatten_cons, hall l (List.mem_cons_self _ _),
          ih (fun m hm => hall m (List.mem_cons_of_mem _ hm))]
        rfl
    rw [this]
  | take ls i x l xs hi _ ih =>
    have hp := perm_flatMap_set (fun m : List α => m) ls i (x :: l) l [x] hi rfl
    have e1 : (ls.set i l).flatMap (fun m : List α => m) = (ls.set i l).flatten :=
      List.flatMap_id _
    have e2 : ls.flatMap (fun m : List α => m) = ls.flatten := List.flatMap_id _
    rw [e1, e2] at hp
    exact (List.Perm.cons x ih).trans hp

theorem sys_step_inv (L0 : List Byte) (total : List (List (List Byte))) (s : Sys) (i : Nat)
    (h : SysInv L0 total s) : SysInv L0 total (sys_step s i) := by
  obtain ⟨hgood, written, hlog, hmerge⟩ := h
  unfold sys_step
  cases hw : s.workers[i]? with
  | none => exact ⟨hgood, written, hlog, hmerge⟩
  | some w =>
    have hmem : w ∈ s.workers := List.getElem?_mem hw
    obtain ⟨hg1, pre, hpre, hlog1⟩ := worker_step_good s.log w (hgood w hmem)
    refine ⟨?_, written ++ pre, ?_, ?_⟩
    · intro v hv
      rcases List.mem_or_eq_of_mem_set hv with hv1 | hv1
      · exact hgood v hv1
      · rw [hv1]; exact hg1
    · show (worker_step s.log w).1 = _
      rw [hlog1, hlog, List.flatten_append, List.append_assoc]
    · intro rest hrest
      simp only [List.map_set] at hrest
      have hget : (s.workers.map pending_chunks)[i]?
          = some (pre ++ pending_chunks (worker_step s.log w).2) := by
        rw [List.getElem?_map, hw, Option.map_some', hpre]
      have := interleaving_prepend pre _ i _ rest hget hrest
      rw [List.append_assoc]
      exact hmerge _ this

theorem run_schedule_inv (L0 : List Byte) (total : List (List (List Byte)))
    (sched : List Nat) :
    ∀ s : Sys, SysInv L0 total s → SysInv L0 total (run_schedule s sched) := by
  induction sched with
  | nil => intro s h; exact h
  | cons i rest ih =>
    intro s h
    exact ih (sys_step s i) (sys_step_inv L0 total s i h)

theorem initial_inv (L0 : List Byte) (clients : List Client)
    (hgood : ∀ c ∈ clients, c.env.succeeds ∧ well_chunked c.chunks) :
    SysInv L0 (clients.map (fun c => c.chunks))
      { log := L0, workers := clients.map Client.worker } := by
  refine ⟨?_, [], by simp, ?_⟩
  · intro w hw
    obtain ⟨c, hc, rfl⟩ := List.mem_map.mp hw
    obtain ⟨hs, hwc⟩ := hgood c hc
    exact ⟨hs.1, hs.2.2.1, hs.2.2.2.2.1, fun _ => ⟨c.chunks, rfl, hwc⟩⟩
  · intro rest hrest
    have : ∀ cl : List Client, (cl.map Client.worker).map pending_chunks
        = cl.map (fun c => c.chunks) := by
      intro cl
      induction cl with
      | nil => rfl
      | cons c cl ih =>
        simp only [List.map_cons, ih]
        congr 1
        exact filterMap_data c.chunks
    simp only [this] at hrest
    simpa using hrest

theorem flatMap_chunks_single (clients : List Client)
    (hone : ∀ c ∈ clients, c.chunks.length = 1) :
    clients.flatMap (fun c => c.chunks) = clients.map Client.record := by
  induction clients with
  | nil => rfl
  | cons c cl ih =>
    have h1 := hone c (List.mem_cons_self _ _)
    simp only [List.flatMap_cons, List.map_cons,
      ih (fun d hd => hone d (List.mem_cons_of_mem _ hd))]
    obtain ⟨r, hr⟩ := List.length_eq_one.mp h1
    simp [Client.record, hr]

/-- C2 (as amended): for every set of clients whose records arrive in `recv`
chunks (every call succeeding, no shutdown) and every interleaving of the
handlers' atomic stretches after which all handlers have ended, the final log
is the initial log followed by a merge of the clients' chunk sequences: every
chunk whole and contiguous, the chunks of each client in the order it sent
them, none lost and none duplicated. Hence the log consists of exactly the
records, each intact, in some order, when every record arrives in a single
chunk, and it is the initial log followed by the record when there is a single
client. -/
theorem concurrent_log_is_merge_of_chunks (clients : List Client) (L0 : List Byte)
    (sched : List Nat)
    (hgood : ∀ c ∈ clients, c.env.succeeds ∧ well_chunked c.chunks)
    (hdone : ∀ w ∈ (run_schedule { log := L0, workers := clients.map Client.worker }
      sched).workers, w.phase = Phase.ended) :
    (∃ order : List (List Byte),
      Interleaving (clients.map (fun c => c.chunks)) order ∧
      (run_schedule { log := L0, workers := clients.map Client.worker } sched).log
        = L0 ++ order.flatten) ∧
    ((∀ c ∈ clients, c.chunks.length = 1) →
      ∃ order : List (List Byte), order.Perm (clients.map Client.record) ∧
        (run_schedule { log := L0, workers := clients.map Client.worker } sched).log
          = L0 ++ order.flatten) ∧
    (∀ c, clients = [c] →
      (run_schedule { log := L0, workers := clients.map Client.worker } sched).log
        = L0 ++ c.record) := by
  obtain ⟨_, written, hlog, hmerge⟩ :=
    run_schedule_inv L0 _ sched _ (initial_inv L0 clients hgood)
  have hnone : Interleaving ((run_schedule { log := L0, workers := clients.map Client.worker }
      sched).workers.map pending_chunks) [] := by
    apply Interleaving.done
    intro l hl
    obtain ⟨w, hw, rfl⟩ := List.mem_map.mp hl
    simp [pending_chunks, hdone w hw]
  have hint := hmerge [] hnone
  rw [List.append_nil] at hint
  refine ⟨⟨written, hint, hlog⟩, ?_, ?_⟩
  · intro hone
    have hp := interleaving_perm _ _ hint
    have hfl : (clients.map (fun c => c.chunks)).flatten
        = clients.flatMap (fun c => c.chunks) := rfl
    rw [hfl, flatMap_chunks_single clients hone] at hp
    exact ⟨written, hp, hlog⟩
  · intro c hc
    have hw := interleaving_single _ _ hint c.chunks (by rw [hc]; rfl)
    rw [hlog, hw]
    rfl

theorem split_clients_good : ∀ c ∈ split_clients, c.env.succeeds ∧ well_chunked c.chunks := by
  intro c hc
  simp only [split_clients, List.mem_cons, List.mem_singleton, List.mem_nil_iff, or_false] at hc
  rcases hc with rfl | rfl
  · exact ⟨all_succeed_succeeds, by show is_chunk _ ∧ _ ∉ _ ∧ is_chunk _ ∧ _ ∈ _; decide⟩
  · exact ⟨all_succeed_succeeds, by show is_chunk _ ∧ _ ∈ _; decide⟩

/-- C2 (as amended), at two clients of which the first sends its record in two
chunks, the handlers taking turns. -/
theorem concurrent_log_is_merge_of_chunks_witness :
    (∀ c ∈ split_clients, c.env.succeeds ∧ well_chunked c.chunks) ∧
    (∀ w ∈ (run_schedule { log := [], workers := split_clients.map Client.worker }
      alternating).workers, w.phase = Phase.ended) ∧
    ((∃ order : List (List Byte),
      Interleaving (split_clients.map (fun c => c.chunks)) order ∧
      (run_schedule { log := [], workers := split_clients.map Client.worker } alternating).log
        = [] ++ order.flatten) ∧
    ((∀ c ∈ split_clients, c.chunks.length = 1) →
      ∃ order : List (List Byte), order.Perm (split_clients.map Client.record) ∧
        (run_schedule { log := [], workers := split_clients.map Client.worker }
          alternating).log = [] ++ order.flatten) ∧
    (∀ c, split_clients = [c] →
      (run_schedule { log := [], workers := split_clients.map Client.worker } alternating).log
        = [] ++ c.record)) :=
  ⟨split_clients_good, by decide,
    concurrent_log_is_merge_of_chunks split_clients [] alternating
      split_clients_good (by decide)⟩

/-- The run of the two whole records evaluated, the second handler writing
first: the log is "world\nhello\n". -/
theorem whole_clients_run :
    (run_schedule { log := [], workers := whole_clients.map Client.worker }
      [1, 0, 1, 0, 1, 0]).log = bytes_of "world\nhello\n" := by
  decide

/-- C2, counterexample: two clients submit the distinct one-line records
"hello\n" and "world\n"; the first record reaches the server as the chunks
"he" and "llo\n". With the handlers taking turns, both end, and the final log
is "heworld\nllo\n": no ordering of the two records gives that log, the bytes
of one record stand inside the other. -/
theorem interleaved_record_counterexample :
    split_clients.map Client.record = [bytes_of "hello\n", bytes_of "world\n"] ∧
    (∀ w ∈ (run_schedule { log := [], workers := split_clients.map Client.worker }
      alternating).workers, w.phase = Phase.ended) ∧
    (run_schedule { log := [], workers := split_clients.map Client.worker } alternating).log
      = bytes_of "heworld\nllo\n" ∧
    ¬ ∃ order : List (List Byte), order.Perm (split_clients.map Client.record) ∧
      (run_schedule { log := [], workers := split_clients.map Client.worker } alternating).log
        = [] ++ order.flatten := by
  refine ⟨by decide, by decide, by decide, ?_⟩
  rintro ⟨order, hperm, hlog⟩
  have hrec : split_clients.map Client.record = [bytes_of "hello\n", bytes_of "world\n"] := by
    decide
  rw [hrec] at hperm
  obtain ⟨x, y, rfl⟩ := List.length_eq_two.mp hperm.length_eq
  have hx : x ∈ [bytes_of "hello\n", bytes_of "world\n"] :=
    hperm.subset (List.mem_cons_self _ _)
  have hy : y ∈ [bytes_of "hello\n", bytes_of "world\n"] :=
    hperm.subset (List.mem_cons_of_mem _ (List.mem_cons_self _ _))
  simp only [List.mem_cons, List.mem_singleton, List.mem_nil_iff, or_false] at hx hy
  rcases hx with rfl | rfl <;> rcases hy with rfl | rfl <;> revert hlog <;> decide

/-! ## Theorems: one thread of the concurrent model is `handle_connection` -/

theorem reply_loop_log (env : Env) :
    ∀ (fuel j pos : Nat) (btr : Int) (st : HState),
      (reply_loop env fuel j pos btr st).state.log = st.log := by
  intro fuel
  induction fuel with
  | zero => intro j pos btr st; rfl
  | succ fuel ih =>
    intro j pos btr st
    cases hr : env.read_res j <;> cases hs : env.send_res j <;>
      (unfold reply_loop; simp only [hr, hs]) <;>
      split_ifs <;>
      first
        | rfl
        | (rw [ih]) 

theorem reply_phase_log (env : Env) (st : HState) :
    (reply_phase env st).state.log = st.log := by
  unfold reply_phase
  simp only
  split
  · rfl
  · have h := reply_loop_log env (st.log.length + 1) 0 0 (st.log.length : Int)
      ((st.emit [Event.fsync, Event.close_data, Event.lock, Event.open_read env.open_read]).emit
        [Event.lseek, Event.lseek])
    simp only [HState.emit] at h ⊢
    split
    · next st1 heq => rw [heq] at h; exact h
    · exact h

theorem sys_step_single (log : List Byte) (w : Worker) :
    sys_step { log := log, workers := [w] } 0
      = { log := (worker_step log w).1, workers := [(worker_step log w).2] } := by
  simp [sys_step]

theorem run_single_succ (log : List Byte) (w : Worker) (n : Nat) :
    run_schedule { log := log, workers := [w] } (List.replicate (n + 1) 0)
      = run_schedule { log := (worker_step log w).1, workers := [(worker_step log w).2] }
          (List.replicate n 0) := by
  simp [run_schedule, List.replicate_succ, sys_step_single]

theorem run_single_ended (log : List Byte) (w : Worker) (h : w.phase = Phase.ended) (n : Nat) :
    run_schedule { log := log, workers := [w] } (List.replicate n 0)
      = { log := log, workers := [w] } := by
  induction n with
  | zero => rfl
  | succ n ih =>
    rw [run_single_succ]
    have : worker_step log w = (log, w) := by unfold worker_step; simp [h]
    rw [this]; exact ih

theorem run_single_replying (env : Env) (st st2 : HState) (w : Worker) (n : Nat)
    (henv : w.env = env) (hph : w.phase = Phase.replying) (hst : w.st = st)
    (hn : 1 ≤ n) (hret : reply_phase env st = Step.returned st2) :
    ∃ w2, run_schedule { log := st.log, workers := [w] } (List.replicate n 0)
        = { log := st2.log, workers := [w2] } ∧
      w2.phase = Phase.ended ∧ w2.st = st2 := by
  obtain ⟨m, rfl⟩ : ∃ m, n = m + 1 := ⟨n - 1, by omega⟩
  have hlog : st2.log = st.log := by
    have := reply_phase_log env st
    rw [hret] at this
    exact this
  have hstep : worker_step st.log w = (st.log, { w with phase := Phase.ended, st := st2 }) := by
    unfold worker_step
    simp only [hph, henv, hst]
    rw [hret]
  rw [run_single_succ, hstep, run_single_ended _ _ rfl, hlog]
  exact ⟨_, rfl, rfl, rfl⟩

theorem run_single_receiving (env : Env) (rs : List RecvResult) :
    ∀ (k n : Nat) (st st2 : HState) (w : Worker),
      w.env = env → w.recvs = rs → w.phase = Phase.receiving k → w.st = st →
      rs.length + 2 ≤ n →
      (match recv_loop env k rs st with
        | Step.leave s => reply_phase env s
        | other => other) = Step.returned st2 →
      ∃ w2, run_schedule { log := st.log, workers := [w] } (List.replicate n 0)
          = { log := st2.log, workers := [w2] } ∧
        w2.phase = Phase.ended ∧ w2.st = st2 := by
  induction rs with
  | nil =>
    intro k n st st2 w henv hrs hph hst hn hret
    obtain ⟨m, rfl⟩ : ∃ m, n = m + 1 := ⟨n - 1, by omega⟩
    unfold recv_loop at hret
    by_cases hsig : env.signal_recv k = true
    · simp only [hsig, if_true] at hret
      have hstep : worker_step st.log w = (st.log, { w with phase := Phase.replying }) := by
        unfold worker_step
        simp only [hph, henv, hsig, if_true]
      rw [run_single_succ, hstep]
      exact run_single_replying env st st2 _ m henv rfl hst (by omega) hret
    · simp only [hsig] at hret
      simp at hret
  | cons r rs ih =>
    intro k n st st2 w henv hrs hph hst hn hret
    obtain ⟨m, rfl⟩ : ∃ m, n = m + 1 := ⟨n - 1, by omega⟩
    simp only [List.length_cons] at hn
    unfold recv_loop at hret
    by_cases hsig : env.signal_recv k = true
    · simp only [hsig, if_true] at hret
      have hstep : worker_step st.log w = (st.log, { w with phase := Phase.replying }) := by
        unfold worker_step
        simp only [hph, henv, hsig, if_true]
      rw [run_single_succ, hstep]
      exact run_single_replying env st st2 _ m henv rfl hst (by omega) hret
    · simp only [hsig] at hret
      have hst' : ({ w.st with log := st.log } : HState) = st := by rw [hst]
      cases hit : recv_iteration env k st r with
      | next s =>
        rw [hit] at hret
        have hstep : worker_step st.log w
            = (s.log, { w with recvs := rs, phase := Phase.receiving (k + 1), st := s }) := by
          unfold worker_step
          simp only [hph, henv, hsig, hrs, hst', hit]
          simp
        rw [run_single_succ, hstep]
        exact ih (k + 1) m s st2 _ henv rfl rfl rfl (by omega) (by simpa using hret)
      | leave s =>
        rw [hit] at hret
        have hstep : worker_step st.log w
            = (s.log, { w with recvs := rs, phase := Phase.replying, st := s }) := by
          unfold worker_step
          simp only [hph, henv, hsig, hrs, hst', hit]
          simp
        rw [run_single_succ, hstep]
        exact run_single_replying env s st2 _ m henv rfl rfl (by omega) (by simpa using hret)
      | returned s =>
        rw [hit] at hret
        have hs2 : s = st2 := by simpa using hret
        have hstep : worker_step st.log w
            = (s.log, { w with recvs := rs, phase := Phase.ended, st := s }) := by
          unfold worker_step
          simp only [hph, henv, hsig, hrs, hst', hit]
          simp
        rw [run_single_succ, hstep, run_single_ended _ _ rfl, hs2]
        exact ⟨_, rfl, rfl, rfl⟩
      | blocked s => rw [hit] at hret; simp at hret
      | fault s => rw [hit] at hret; simp at hret
      | out_of_fuel s => rw [hit] at hret; simp at hret

/-- A handler thread of the concurrent model that runs alone for enough
stretches ends in the state in which `handle_connection` returns, and leaves
the file as `handle_connection` leaves it. -/
theorem solo_is_handle_connection (env : Env) (recvs : List RecvResult)
    (log0 mem0 : List Byte) (st : HState)
    (h : handle_connection env recvs log0 mem0 = Step.returned st) :
    ∃ w, solo env recvs log0 mem0 (recvs.length + 3) = { log := st.log, workers := [w] } ∧
      w.phase = Phase.ended ∧ w.st = st := by
  unfold solo
  rw [run_single_succ]
  unfold handle_connection at h
  simp only at h
  by_cases hopen : env.open_append = true
  · simp only [hopen, Bool.not_true, Bool.false_eq_true, if_false] at h
    have hstep : worker_step log0 (new_worker env recvs mem0)
        = (log0, { new_worker env recvs mem0 with
            phase := Phase.receiving 0
            st := ⟨log0, mem0, [], false, [Event.open_append true]⟩ }) := by
      unfold worker_step
      simp [new_worker, hopen]
    rw [hstep]
    exact run_single_receiving env recvs 0 (recvs.length + 2)
      ⟨log0, mem0, [], false, [Event.open_append true]⟩ st _ rfl rfl rfl rfl (by omega) h
  · have hopen2 : env.open_append = false := by
      cases hb : env.open_append
      · rfl
      · exact absurd hb hopen
    simp only [hopen2, Bool.not_false, if_true] at h
    have hs : finish (HState.emit ⟨log0, mem0, [], false, [Event.open_append false]⟩
        [Event.syslog]) = st := by simpa using h
    have hstep : worker_step log0 (new_worker env recvs mem0)
        = (log0, { new_worker env recvs mem0 with
            phase := Phase.ended
            st := finish (HState.emit ⟨log0, mem0, [], false, [Event.open_append false]⟩
              [Event.syslog]) }) := by
      unfold worker_step
      simp [new_worker, hopen2]
    rw [hstep, run_single_ended _ _ rfl]
    subst hs
    exact ⟨_, rfl, rfl, rfl⟩

end Aesd
